import Mathlib

/-!
Verification of the text-processing core of the law-school-study-buddy
repository.  Strings are modelled as lists of characters; the JavaScript
functions of src/lib/pdfChunker.ts, src/lib/api-helpers.ts and
src/app/api/generate-podcast/route.ts are embedded as executable Lean
functions below, keeping the source names.
-/

/-- Whitespace predicate standing for the JavaScript regex class \s
(space, tab, newline, carriage return). -/
def isWs (c : Char) : Bool := c.isWhitespace

/-- Word-character predicate standing for the JavaScript regex class \w,
used for word-boundary tests. -/
def isWordChar (c : Char) : Bool := c.isAlpha || c.isDigit || c = '_'

/-- Drop leading whitespace, as the front half of String.prototype.trim. -/
def trimLeft (l : List Char) : List Char := l.dropWhile (fun c => isWs c)

/-- Drop trailing whitespace, as the back half of String.prototype.trim. -/
def trimRight (l : List Char) : List Char :=
  (l.reverse.dropWhile (fun c => isWs c)).reverse

/-- String.prototype.trim: drop whitespace from both ends. -/
def trim (l : List Char) : List Char := trimRight (trimLeft l)

/-- Structural worker for collapseWs.  The fuel argument only forces
termination: every step consumes at least one character, so the caller's
fuel (the length of the list) is never exhausted. -/
def collapseWsGo : Nat → List Char → List Char
  | 0, _ => []
  | _ + 1, [] => []
  | fuel + 1, c :: rest =>
    if isWs c then ' ' :: collapseWsGo fuel (rest.dropWhile (fun d => isWs d))
    else c :: collapseWsGo fuel rest

/-- First replacement of cleanPdfText: text.replace(/\s+/g, ' '), which
rewrites every maximal run of whitespace to a single space. -/
def collapseWs (l : List Char) : List Char := collapseWsGo l.length l

/-- Word-boundary test against the next character: at the end of the
string, or before a non-word character, with a word character behind. -/
def boundaryAfter (l : List Char) : Bool :=
  match l.head? with
  | none => true
  | some c => !isWordChar c

/-- Matcher for the part \s*\d+\s*(of\s*\d+)?\b of the page-furniture
regex, applied to the characters after the keyword.  Returns how many of
them the match consumes.  The backtracking of the trailing
\s*(of\s*\d+)?\b is reproduced: the optional group is tried greedily after
the whitespace run, and otherwise the whitespace run is given back until a
word boundary holds. -/
def pageTail (rest1 : List Char) : Option Nat :=
  let ws1 := rest1.takeWhile (fun c => isWs c)
  let rest2 := rest1.dropWhile (fun c => isWs c)
  let digits1 := rest2.takeWhile Char.isDigit
  if digits1 = [] then none
  else
    let rest3 := rest2.dropWhile Char.isDigit
    let base := ws1.length + digits1.length
    let ws2 := rest3.takeWhile (fun c => isWs c)
    let rest4 := rest3.dropWhile (fun c => isWs c)
    let ofBranch : Option Nat :=
      if rest4.take 2 = ['o', 'f'] then
        let rest5 := rest4.drop 2
        let ws3 := rest5.takeWhile (fun c => isWs c)
        let rest6 := rest5.dropWhile (fun c => isWs c)
        let digits2 := rest6.takeWhile Char.isDigit
        if digits2 ≠ [] ∧ boundaryAfter (rest6.drop digits2.length) = true then
          some (base + ws2.length + 2 + ws3.length + digits2.length)
        else none
      else none
    match ofBranch with
    | some n => some n
    | none =>
      if ws2 = [] then
        if boundaryAfter rest4 = true then some base else none
      else
        match rest4.head? with
        | some c => if isWordChar c then some (base + ws2.length) else some base
        | none => some base

/-- Matcher for the regex \b(Page|page|PAGE)\s*\d+\s*(of\s*\d+)?\b at the
head of the list (the word boundary before the keyword is checked by the
caller).  Returns the number of characters the match consumes. -/
def matchPageAt (cs : List Char) : Option Nat :=
  if cs.take 4 = "Page".toList ∨ cs.take 4 = "page".toList ∨ cs.take 4 = "PAGE".toList then
    (pageTail (cs.drop 4)).map (fun m => 4 + m)
  else none

theorem matchPageAt_ge (cs : List Char) (n : Nat) (h : matchPageAt cs = some n) : 4 ≤ n := by
  unfold matchPageAt at h
  split at h
  · match hp : pageTail (cs.drop 4) with
    | some m => rw [hp] at h; simp only [Option.map_some', Option.some.injEq] at h; omega
    | none => rw [hp] at h; exact absurd h (by simp)
  · exact absurd h (by simp)

/-- Word-boundary test against the previous character: at the start of
the string, or after a non-word character. -/
def boundaryBefore : Option Char → Bool
  | none => true
  | some p => !isWordChar p

/-- Second replacement of cleanPdfText:
text.replace(/\b(Page|page|PAGE)\s*\d+\s*(of\s*\d+)?\b/g, ''), scanning
left to right and deleting every match.  The previous character is carried
along for the leading word-boundary test. -/
def stripPageTokensGo : Nat → Option Char → List Char → List Char
  | 0, _, _ => []
  | _ + 1, _, [] => []
  | fuel + 1, prev, c :: rest =>
    if boundaryBefore prev then
      match matchPageAt (c :: rest) with
      | some n => stripPageTokensGo fuel (((c :: rest).take n).getLast?) ((c :: rest).drop n)
      | none => c :: stripPageTokensGo fuel (some c) rest
    else c :: stripPageTokensGo fuel (some c) rest

/-- Entry point of the page-furniture replacement: scan from the start of
the string with no previous character. -/
def stripPageTokens (l : List Char) : List Char := stripPageTokensGo l.length none l

/-- Third replacement of cleanPdfText: text.replace(/^\d+\s*$/gm, ''),
removing digit-only lines.  The boolean records whether the scanner is at
the start of a line.  Per the multiline semantics of the anchors, a match
beginning at a line start consumes the digits and then as much following
whitespace as keeps the dollar anchor satisfiable: everything when the
whitespace reaches the end of the string, otherwise up to the last newline
of the whitespace run; a digit run whose trailing whitespace contains no
newline and does not reach the end is not a match. -/
def stripDigitLinesGo : Nat → Bool → List Char → List Char
  | 0, _, _ => []
  | _ + 1, _, [] => []
  | fuel + 1, atLineStart, c :: rest =>
    if atLineStart ∧ c.isDigit then
      let after := rest.dropWhile Char.isDigit
      let wsrun := after.takeWhile (fun d => isWs d)
      let after2 := after.dropWhile (fun d => isWs d)
      match after2 with
      | [] => []
      | _ :: _ =>
        if '\n' ∈ wsrun then
          let j := ((List.range wsrun.length).filter
            (fun i => wsrun.getD i ' ' = '\n')).foldl (fun _ i => i) 0
          stripDigitLinesGo fuel false (wsrun.drop j ++ after2)
        else
          (c :: rest.takeWhile Char.isDigit) ++ wsrun ++ stripDigitLinesGo fuel false after2
    else
      c :: stripDigitLinesGo fuel (c = '\n') rest

/-- Entry point of the digit-line replacement: scan from the start of the
string, which is a line start. -/
def stripDigitLines (l : List Char) : List Char := stripDigitLinesGo l.length true l

/-- Fourth replacement of cleanPdfText: text.replace(/\n{3,}/g, '\n\n'),
rewriting every run of three or more newlines to exactly two. -/
def collapseNl3Go : Nat → List Char → List Char
  | 0, _ => []
  | _ + 1, [] => []
  | fuel + 1, c :: rest =>
    if c = '\n' then
      let run := c :: rest.takeWhile (fun d => d = '\n')
      let after := rest.dropWhile (fun d => d = '\n')
      (if 3 ≤ run.length then ['\n', '\n'] else run) ++ collapseNl3Go fuel after
    else c :: collapseNl3Go fuel rest

/-- Fourth replacement of cleanPdfText, entry point. -/
def collapseNl3 (l : List Char) : List Char := collapseNl3Go l.length l

/-- Embedding of cleanPdfText from src/lib/pdfChunker.ts: the four global
regex replacements followed by a trim, in source order. -/
def cleanPdfText (text : List Char) : List Char :=
  trim (collapseNl3 (stripDigitLines (stripPageTokens (collapseWs text))))

/-- The behaviour the amended description of the cleaning step asserts,
written out from its words so it can be compared with cleanPdfText:
collapse every whitespace run to a single space, remove the page
furniture, erase the whole remaining string exactly when it is one run
of digits followed only by whitespace (the degenerate form the multiline
digit-line rule takes on newline-free text), and trim; the newline
collapse does not appear because it never fires. -/
def describedCleanPdfText (text : List Char) : List Char :=
  trim (if (stripPageTokens (collapseWs text)).takeWhile Char.isDigit ≠ [] ∧
            ((stripPageTokens (collapseWs text)).dropWhile Char.isDigit).dropWhile
              (fun d => isWs d) = [] then
          []
        else stripPageTokens (collapseWs text))

/-- JavaScript String.prototype.lastIndexOf for a substring: the largest
index at which the pattern occurs, if any. -/
def lastIndexOf? (l pat : List Char) : Option Nat :=
  ((List.range (l.length + 1 - pat.length)).filter
    (fun i => pat.isPrefixOf (l.drop i))).getLast?

/-- Sentence-break patterns of findBestSplitPoint, in source order. -/
def sentencePatterns : List (List Char) :=
  [['.', ' '], ['?', ' '], ['!', ' '], ['.', '\n'], ['?', '\n'], ['!', '\n']]

/-- Try each sentence-break pattern in order and return the end of the
last occurrence of the first pattern that occurs at all. -/
def sentenceBreakAt : List Char → List (List Char) → Option Nat
  | _, [] => none
  | area, p :: ps =>
    match lastIndexOf? area p with
    | some i => some (i + p.length)
    | none => sentenceBreakAt area ps

/-- Embedding of findBestSplitPoint from src/lib/pdfChunker.ts: search the
window of the given radius around the target position for a paragraph
break, then a sentence break, then a word break, and fall back to the
target position itself. -/
def findBestSplitPoint (text : List Char) (targetPosition : Nat) (radius : Nat) : Nat :=
  let start := targetPosition - radius
  let stop := min text.length (targetPosition + radius)
  let searchArea := (text.drop start).take (stop - start)
  match lastIndexOf? searchArea ['\n', '\n'] with
  | some i => start + i + 2
  | none =>
    match sentenceBreakAt searchArea sentencePatterns with
    | some v => start + v
    | none =>
      match lastIndexOf? searchArea [' '] with
      | some i => start + i + 1
      | none => targetPosition

/-- Options record of chunkText, as in src/lib/pdfChunker.ts. -/
structure ChunkOptions where
  maxChunkSize : Nat
  overlapSize : Nat
  minChunkSize : Nat

/-- Default options of chunkText. -/
def DEFAULT_OPTIONS : ChunkOptions :=
  { maxChunkSize := 8000, overlapSize := 500, minChunkSize := 1000 }

/-- Result record of chunkText. -/
structure ChunkResult where
  chunks : List (List Char)
  totalCharacters : Nat
  chunkCount : Nat

/-- The while loop of chunkText.  The fuel argument only forces
termination: the position strictly increases at every step, so fuel equal
to the text length is never exhausted. -/
def chunkLoopGo (text : List Char) (opts : ChunkOptions) :
    Nat → Nat → List (List Char) → List (List Char)
  | 0, _, acc => acc
  | fuel + 1, position, acc =>
    if position < text.length then
      if text.length ≤ position + opts.maxChunkSize then
        acc ++ [trim (text.drop position)]
      else
        let endPosition := findBestSplitPoint text (position + opts.maxChunkSize) 200
        let chunk := trim ((text.drop position).take (endPosition - position))
        let acc2 := if opts.minChunkSize ≤ chunk.length then acc ++ [chunk] else acc
        chunkLoopGo text opts fuel (max (position + 1) (endPosition - opts.overlapSize)) acc2
    else acc

/-- Embedding of chunkText from src/lib/pdfChunker.ts: clean the text,
return it whole when it fits in one chunk, and otherwise run the
splitting loop from position zero. -/
def chunkText (text : List Char) (opts : ChunkOptions) : ChunkResult :=
  let cleanedText := cleanPdfText text
  if cleanedText.length ≤ opts.maxChunkSize then
    { chunks := [cleanedText], totalCharacters := cleanedText.length, chunkCount := 1 }
  else
    let cs := chunkLoopGo cleanedText opts cleanedText.length 0 []
    { chunks := cs, totalCharacters := cleanedText.length, chunkCount := cs.length }

/-- Embedding of selectRepresentativeChunks from src/lib/pdfChunker.ts:
keep everything when it fits, otherwise keep the first chunk, the last
chunk when more than one slot exists, and evenly stepped middle chunks
spliced in before the last one. -/
def selectRepresentativeChunks (chunks : List (List Char)) (maxChunks : Nat) :
    List (List Char) :=
  if chunks.length ≤ maxChunks then chunks
  else
    let selected1 := [chunks.headD []]
    let selected2 := if 1 < maxChunks then selected1 ++ [chunks.getLastD []] else selected1
    let remainingSlots := maxChunks - selected2.length
    if 0 < remainingSlots ∧ 2 < chunks.length then
      let middleChunks := (chunks.drop 1).dropLast
      let step := middleChunks.length / (remainingSlots + 1)
      (List.range remainingSlots).foldl
        (fun sel i => sel.insertIdx (sel.length - 1)
          (middleChunks.getD (min ((i + 1) * step) (middleChunks.length - 1)) []))
        selected2
    else selected2

/-- Embedding of distributeQuestions from src/lib/pdfChunker.ts: each
chunk gets the floor share, and the first remainder-many chunks one extra. -/
def distributeQuestions (totalQuestions chunkCount : Nat) : List Nat :=
  if chunkCount = 1 then [totalQuestions]
  else
    (List.range chunkCount).map
      (fun i => totalQuestions / chunkCount +
        if i < totalQuestions % chunkCount then 1 else 0)

/-- Maximal runs of non-whitespace characters, used to model the
JavaScript split on the regex \s+.  Fuel as elsewhere. -/
def nonWsTokensGo : Nat → List Char → List (List Char)
  | 0, _ => []
  | _ + 1, [] => []
  | fuel + 1, c :: rest =>
    if isWs c then nonWsTokensGo fuel rest
    else (c :: rest.takeWhile (fun d => !isWs d)) ::
      nonWsTokensGo fuel (rest.dropWhile (fun d => !isWs d))

/-- JavaScript text.split(/\s+/): the maximal non-whitespace runs, with an
empty string added in front when the text starts with whitespace and at
the back when it ends with whitespace, and a single empty string for the
empty text. -/
def jsSplitWs (s : List Char) : List (List Char) :=
  match s with
  | [] => [[]]
  | c :: _ =>
    let core := nonWsTokensGo s.length s
    let pre : List (List Char) := if isWs c then [[]] else []
    let post : List (List Char) := if isWs (s.getLastD c) then [[]] else []
    pre ++ core ++ post

/-- Embedding of calculateSimilarity from src/lib/pdfChunker.ts: the
Jaccard similarity of the sets of lowercased whitespace-separated tokens. -/
def calculateSimilarity (text1 text2 : List Char) : ℚ :=
  let words1 := (jsSplitWs (text1.map Char.toLower)).toFinset
  let words2 := (jsSplitWs (text2.map Char.toLower)).toFinset
  ((words1 ∩ words2).card : ℚ) / ((words1 ∪ words2).card : ℚ)

/-- Embedding of deduplicateQuestions from src/lib/pdfChunker.ts: keep a
question only when its similarity to every kept question is not strictly
above the threshold.  Questions are represented by their text. -/
def deduplicateQuestions (questions : List (List Char)) (similarityThreshold : ℚ) :
    List (List Char) :=
  questions.foldl
    (fun unique q =>
      if unique.any (fun existing => similarityThreshold < calculateSimilarity existing q)
      then unique
      else unique ++ [q])
    []

/-- Shape of the errors thrown by the OpenAI client, as far as withRetry
inspects them: the HTTP status, when one is present on the error or on its
response (the source reads error?.status || error?.response?.status; the
first status found is modelled). -/
structure JsError where
  status : Option Int

/-- Default shouldRetry of withRetry from src/lib/api-helpers.ts: retry on
HTTP 429 and on 5xx statuses; errors carrying no status are not retried. -/
def defaultShouldRetry (e : JsError) : Bool :=
  match e.status with
  | none => false
  | some s => s == 429 || (500 ≤ s && s < 600)

/-- Options record of withRetry with its default values. -/
structure RetryOptions where
  maxRetries : Nat := 3
  initialDelayMs : Nat := 1000
  maxDelayMs : Nat := 10000
  shouldRetry : JsError → Bool := defaultShouldRetry

/-- The retry loop of withRetry.  The wrapped function is modelled as a
map from the attempt number to that attempt's outcome; the result carries
the list of delays slept before retries, so the number of delayed retries
is observable.  The last argument counts the attempts still allowed after
the current one (maxRetries - attempt); when it reaches zero the current
outcome is returned as is, matching the attempt === maxRetries bail-out. -/
def withRetryGo {T : Type} (fn : Nat → Except JsError T) (shouldRetry : JsError → Bool)
    (maxDelayMs : Nat) : Nat → Nat → Nat → Except JsError T × List Nat
  | attempt, _, 0 => (fn attempt, [])
  | attempt, delay, left + 1 =>
    match fn attempt with
    | .ok v => (.ok v, [])
    | .error e =>
      if shouldRetry e then
        let r := withRetryGo fn shouldRetry maxDelayMs (attempt + 1)
          (min (delay * 2) maxDelayMs) left
        (r.1, delay :: r.2)
      else (.error e, [])

/-- Embedding of withRetry from src/lib/api-helpers.ts. -/
def withRetry {T : Type} (fn : Nat → Except JsError T) (opts : RetryOptions) :
    Except JsError T × List Nat :=
  withRetryGo fn opts.shouldRetry opts.maxDelayMs 0 opts.initialDelayMs opts.maxRetries

/-- Rate-limit ceiling of src/lib/api-helpers.ts. -/
def RATE_LIMIT_MAX : Nat := 10

/-- Rate-limit window of src/lib/api-helpers.ts, in milliseconds. -/
def RATE_LIMIT_WINDOW_MS : Nat := 3600000

/-- Result record of checkRateLimit. -/
structure RateLimitResult where
  allowed : Bool
  remaining : Int
  resetAt : Int
  error : Option (List Char)
deriving DecidableEq

/-- The error message produced when the ceiling is reached. -/
def rateLimitMessage : List Char :=
  "Rate limit exceeded. You can generate up to 10 items per hour. Please try again later.".toList

/-- Embedding of checkRateLimit from src/lib/api-helpers.ts.  The database
count of the user's generations inside the trailing window is modelled as
a parameter: an error from the lookup, or the possibly null count it
returned.  The current time is a parameter used for the reset timestamp. -/
def checkRateLimit (countResult : Except Unit (Option Nat)) (now : Int) : RateLimitResult :=
  match countResult with
  | .error _ =>
    { allowed := true, remaining := (RATE_LIMIT_MAX : Int),
      resetAt := now + (RATE_LIMIT_WINDOW_MS : Int), error := none }
  | .ok count =>
    let used := count.getD 0
    let remaining := max 0 ((RATE_LIMIT_MAX : Int) - used)
    let resetAt := now + (RATE_LIMIT_WINDOW_MS : Int)
    if RATE_LIMIT_MAX ≤ used then
      { allowed := false, remaining := 0, resetAt := resetAt,
        error := some rateLimitMessage }
    else
      { allowed := true, remaining := remaining, resetAt := resetAt, error := none }

/-- JavaScript String.prototype.lastIndexOf(c, pos) for a single
character: the largest index not above pos at which the character sits. -/
def lastIndexOfCharLe (l : List Char) (c : Char) (pos : Nat) : Option Nat :=
  ((List.range l.length).filter
    (fun i => decide (i ≤ pos ∧ l.getD i ' ' = c))).getLast?

/-- The backwards sentence-end scan of splitTextIntoChunks, on the window
it inspects.  The first argument is the absolute index of the window's
head inside the chunk; the returned value is lastSentenceEnd, the absolute
index one past the rightmost sentence-ending punctuation that ends the
chunk or is followed by a space or newline. -/
def lastSentenceEndGo : Nat → List Char → Option Nat
  | _, [] => none
  | j, [c] => if c = '.' ∨ c = '!' ∨ c = '?' then some (j + 1) else none
  | j, c :: d :: rest =>
    match lastSentenceEndGo (j + 1) (d :: rest) with
    | some r => some r
    | none =>
      if (c = '.' ∨ c = '!' ∨ c = '?') ∧ (d = ' ' ∨ d = '\n') then some (j + 1) else none

/-- The split index chosen by one iteration of splitTextIntoChunks: the
last sentence end in the trailing 500-character window of the chunk when
it lies past the middle, otherwise the last space within the limit when
it lies past the middle, otherwise the hard limit itself. -/
def podcastSplitIndex (maxLength : Nat) (remaining : List Char) : Nat :=
  let chunk := remaining.take maxLength
  let window := chunk.drop (maxLength - 500)
  let fallbackIdx :=
    match lastIndexOfCharLe remaining ' ' maxLength with
    | some s => if maxLength / 2 < s then s else maxLength
    | none => maxLength
  match lastSentenceEndGo (maxLength - 500) window with
  | some v => if maxLength / 2 < v then v else fallbackIdx
  | none => fallbackIdx

/-- The while loop of splitTextIntoChunks from
src/app/api/generate-podcast/route.ts.  Fuel as elsewhere: every
iteration shortens the remaining text by at least one character whenever
maxLength is at least one. -/
def splitTextIntoChunksGo (maxLength : Nat) : Nat → List Char → List (List Char)
  | 0, _ => []
  | fuel + 1, remaining =>
    if remaining.length = 0 then []
    else if remaining.length ≤ maxLength then [remaining]
    else
      trim (remaining.take (podcastSplitIndex maxLength remaining)) ::
        splitTextIntoChunksGo maxLength fuel
          (trim (remaining.drop (podcastSplitIndex maxLength remaining)))

/-- Embedding of splitTextIntoChunks from
src/app/api/generate-podcast/route.ts. -/
def splitTextIntoChunks (text : List Char) (maxLength : Nat) : List (List Char) :=
  splitTextIntoChunksGo maxLength (text.length + 1) (trim text)

/-- The candidate windows the chunkText loop visits, for relating the
emitted chunks to positions in the cleaned text.  Mirrors chunkLoopGo. -/
def chunkIntervalsGo (text : List Char) (opts : ChunkOptions) : Nat → Nat → List (Nat × Nat)
  | 0, _ => []
  | fuel + 1, position =>
    if position < text.length then
      if text.length ≤ position + opts.maxChunkSize then [(position, text.length)]
      else
        let e := findBestSplitPoint text (position + opts.maxChunkSize) 200
        (position, e) :: chunkIntervalsGo text opts fuel (max (position + 1) (e - opts.overlapSize))
    else []

/-- The chunks a window list gives rise to: every window but the last is
sliced, trimmed and kept only when it reaches the minimum size; the last
window is the rest of the text, trimmed and kept unconditionally. -/
def emitIntervals (text : List Char) (minSize : Nat) : List (Nat × Nat) → List (List Char)
  | [] => []
  | (s, e) :: ivs =>
    match ivs with
    | [] => [trim (text.drop s)]
    | iv2 :: rest =>
      (if minSize ≤ (trim ((text.drop s).take (e - s))).length
       then [trim ((text.drop s).take (e - s))] else [])
      ++ emitIntervals text minSize (iv2 :: rest)

/-- Interleave pieces with separators: the pieces in order with one
separator between each adjacent pair. -/
def joinWithSeps : List (List Char) → List (List Char) → List Char
  | [], _ => []
  | [p], _ => p
  | p :: q :: ps, [] => p ++ joinWithSeps (q :: ps) []
  | p :: q :: ps, w :: ws => p ++ w ++ joinWithSeps (q :: ps) ws

/-! General lemmas about the text helpers. -/

theorem dropWhile_head_not {p : Char → Bool} (l : List Char) (c : Char)
    (h : (l.dropWhile p).head? = some c) : p c = false := by
  induction l with
  | nil => simp at h
  | cons a rest ih =>
    rw [List.dropWhile_cons] at h
    by_cases ha : p a = true
    · rw [if_pos ha] at h
      exact ih h
    · rw [if_neg ha] at h
      simp only [List.head?_cons, Option.some.injEq] at h
      subst h
      simpa using ha

theorem dropWhile_eq_self_of_head {p : Char → Bool} (l : List Char)
    (h : ∀ c, l.head? = some c → p c = false) : l.dropWhile p = l := by
  cases l with
  | nil => simp
  | cons a rest =>
    rw [List.dropWhile_cons, if_neg]
    simp [h a rfl]

theorem trimLeft_head_not_ws (l : List Char) (c : Char) (h : (trimLeft l).head? = some c) :
    isWs c = false := dropWhile_head_not l c h

theorem trimRight_getLast_not_ws (l : List Char) (c : Char)
    (h : (trimRight l).getLast? = some c) : isWs c = false := by
  unfold trimRight at h
  rw [List.getLast?_reverse] at h
  exact dropWhile_head_not l.reverse c h

/-- The list is its right-trimmed part followed by its trailing
whitespace run. -/
theorem trimRight_decomp (l : List Char) :
    l = trimRight l ++ (l.reverse.takeWhile (fun d => isWs d)).reverse := by
  unfold trimRight
  conv_lhs => rw [← l.reverse_reverse]
  rw [← List.reverse_append]
  congr 1
  simp

theorem trim_head_not_ws (l : List Char) (c : Char) (h : (trim l).head? = some c) :
    isWs c = false := by
  unfold trim at h
  have hsplit := congrArg List.head? (trimRight_decomp (trimLeft l))
  rw [List.head?_append, h, Option.or_some] at hsplit
  exact trimLeft_head_not_ws l c hsplit

theorem trim_getLast_not_ws (l : List Char) (c : Char) (h : (trim l).getLast? = some c) :
    isWs c = false := trimRight_getLast_not_ws _ c h

/-- Characters of the trimmed list are characters of the list. -/
theorem trim_subset (l : List Char) : ∀ c ∈ trim l, c ∈ l := by
  intro c hc
  unfold trim trimRight trimLeft at hc
  rw [List.mem_reverse] at hc
  have h1 := (List.dropWhile_sublist (fun d => isWs d)).subset hc
  rw [List.mem_reverse] at h1
  exact (List.dropWhile_sublist _).subset h1

theorem trim_length_le (l : List Char) : (trim l).length ≤ l.length := by
  unfold trim trimRight trimLeft
  calc ((l.dropWhile (fun c => isWs c)).reverse.dropWhile (fun c => isWs c)).reverse.length
      = ((l.dropWhile (fun c => isWs c)).reverse.dropWhile (fun c => isWs c)).length := by
        rw [List.length_reverse]
    _ ≤ (l.dropWhile (fun c => isWs c)).reverse.length := (List.dropWhile_sublist _).length_le
    _ = (l.dropWhile (fun c => isWs c)).length := by rw [List.length_reverse]
    _ ≤ l.length := (List.dropWhile_sublist _).length_le

/-- A list whose ends hold no whitespace is unchanged by trim. -/
theorem trim_eq_self (l : List Char)
    (h1 : ∀ c, l.head? = some c → isWs c = false)
    (h2 : ∀ c, l.getLast? = some c → isWs c = false) : trim l = l := by
  have htl : trimLeft l = l := dropWhile_eq_self_of_head l h1
  unfold trim
  rw [htl]
  unfold trimRight
  rw [dropWhile_eq_self_of_head l.reverse, List.reverse_reverse]
  intro c hc
  rw [List.head?_reverse] at hc
  exact h2 c hc

theorem trim_trim (l : List Char) : trim (trim l) = trim l :=
  trim_eq_self _ (trim_head_not_ws l) (trim_getLast_not_ws l)

/-! Distribution of questions over chunks (claim C4). -/

theorem distribution_sum (base r : Nat) (n : Nat) :
    ((List.range n).map (fun i => base + if i < r then 1 else 0)).sum = n * base + min r n := by
  induction n with
  | zero => simp
  | succ n ih =>
    rw [List.range_succ, List.map_append, List.sum_append]
    simp only [List.map_cons, List.map_nil, List.sum_cons, List.sum_nil]
    rw [ih]
    have hmul : (n + 1) * base = n * base + base := by ring
    by_cases hn : n < r
    · rw [if_pos hn]
      omega
    · rw [if_neg hn]
      omega

theorem getD_map_range (f : Nat → Nat) (n i : Nat) (h : i < n) :
    ((List.range n).map f).getD i 0 = f i := by
  rw [List.getD_eq_getElem?_getD, List.getElem?_map, List.getElem?_range h]
  rfl

/-- C4: for every total and chunkCount at least 1, distributeQuestions
returns exactly chunkCount non-negative integers summing exactly to total,
whose first (total mod chunkCount) entries each equal
floor(total / chunkCount) + 1 and whose remaining entries each equal
floor(total / chunkCount); in particular distributeQuestions 10 3 is
[4, 3, 3]. -/
theorem distributeQuestions_spec (total chunkCount : Nat) (h : 1 ≤ chunkCount) :
    (distributeQuestions total chunkCount).length = chunkCount ∧
    (distributeQuestions total chunkCount).sum = total ∧
    (∀ i, i < chunkCount → (distributeQuestions total chunkCount).getD i 0
      = total / chunkCount + if i < total % chunkCount then 1 else 0) ∧
    distributeQuestions 10 3 = [4, 3, 3] := by
  refine ⟨?_, ?_, ?_, by decide⟩ <;> unfold distributeQuestions
  · split
    · rename_i h1; simp [h1]
    · simp
  · split
    · rename_i h1; subst h1; simp
    · rename_i h1
      rw [distribution_sum]
      have hr : total % chunkCount < chunkCount := Nat.mod_lt _ (by omega)
      have hd := Nat.div_add_mod total chunkCount
      omega
  · split
    · rename_i h1; subst h1
      intro i hi
      have : i = 0 := by omega
      subst this
      simp [Nat.mod_one]
    · intro i hi
      rw [getD_map_range _ _ _ hi]

/-- Witness for distributeQuestions_spec at total 10, chunkCount 3. -/
theorem distributeQuestions_spec_witness :
    (distributeQuestions 10 3).length = 3 ∧
    (distributeQuestions 10 3).sum = 10 ∧
    (∀ i, i < 3 → (distributeQuestions 10 3).getD i 0
      = 10 / 3 + if i < 10 % 3 then 1 else 0) ∧
    distributeQuestions 10 3 = [4, 3, 3] :=
  distributeQuestions_spec 10 3 (by norm_num)

/-! Retry helper (claim C7). -/

/-- C7: withRetry propagates a non-transient error immediately, with no
delayed retry, after the single failing invocation; under the default
classifier an error is transient exactly for status 429 and the 5xx
statuses; and a call that is rate-limited exactly twice and then succeeds
returns the success after exactly two delayed retries under the default
options (maxRetries 3), with the doubling delays. -/
theorem withRetry_spec {T : Type} (fn g : Nat → Except JsError T) (opts : RetryOptions)
    (e : JsError) (v : T)
    (h1 : opts.shouldRetry e = false) (h2 : fn 0 = .error e)
    (h3 : g 0 = .error ⟨some 429⟩) (h4 : g 1 = .error ⟨some 429⟩) (h5 : g 2 = .ok v) :
    withRetry fn opts = (.error e, []) ∧
    withRetry g {} = (.ok v, [1000, 2000]) ∧
    defaultShouldRetry ⟨some 429⟩ = true ∧
    (∀ s : Int, 500 ≤ s → s < 600 → defaultShouldRetry ⟨some s⟩ = true) ∧
    defaultShouldRetry ⟨some 404⟩ = false ∧
    defaultShouldRetry ⟨none⟩ = false := by
  refine ⟨?_, ?_, by decide, ?_, by decide, by decide⟩
  · unfold withRetry
    cases hm : opts.maxRetries with
    | zero => simp [withRetryGo, h2]
    | succ k => simp [withRetryGo, h2, h1]
  · have hsr : defaultShouldRetry ⟨some 429⟩ = true := by decide
    unfold withRetry
    show withRetryGo g defaultShouldRetry 10000 0 1000 3 = (.ok v, [1000, 2000])
    rw [show (3 : Nat) = 2 + 1 from rfl, withRetryGo, h3]
    simp only [hsr, if_true]
    rw [show (2 : Nat) = 1 + 1 from rfl, withRetryGo, h4]
    simp only [hsr, if_true]
    norm_num
    rw [show (1 : Nat) = 0 + 1 from rfl, withRetryGo, h5]
    simp
  · intro s hs1 hs2
    simp only [defaultShouldRetry, Bool.or_eq_true, beq_iff_eq, Bool.and_eq_true,
      decide_eq_true_eq]
    right
    exact ⟨hs1, hs2⟩

/-- Witness for withRetry_spec: a function that always fails with a 404
and one that is rate-limited twice then returns 7. -/
theorem withRetry_spec_witness :
    withRetry (fun _ => (.error ⟨some 404⟩ : Except JsError Nat)) {} = (.error ⟨some 404⟩, []) ∧
    withRetry (fun n => if n < 2 then (.error ⟨some 429⟩ : Except JsError Nat) else .ok 7) {}
      = (.ok 7, [1000, 2000]) ∧
    defaultShouldRetry ⟨some 429⟩ = true ∧
    (∀ s : Int, 500 ≤ s → s < 600 → defaultShouldRetry ⟨some s⟩ = true) ∧
    defaultShouldRetry ⟨some 404⟩ = false ∧
    defaultShouldRetry ⟨none⟩ = false :=
  withRetry_spec (fun _ => .error ⟨some 404⟩)
    (fun n => if n < 2 then .error ⟨some 429⟩ else .ok 7) {} ⟨some 404⟩ 7
    (by decide) rfl rfl rfl rfl

/-! Rate limiting (claim C8). -/

/-- C8: checkRateLimit fails open, allowing the request, whenever the
count lookup errors; and on a successful lookup it denies, with the
descriptive error message, remaining 0 and the reset time one window
ahead, exactly when the counted generations in the trailing window have
reached the ceiling of 10. -/
theorem checkRateLimit_spec (e : Unit) (c : Nat) (now : Int) :
    checkRateLimit (.error e) now =
      { allowed := true, remaining := 10, resetAt := now + 3600000, error := none } ∧
    ((checkRateLimit (.ok (some c)) now).allowed = false ↔ 10 ≤ c) ∧
    (checkRateLimit (.ok (some c)) now =
      { allowed := false, remaining := 0, resetAt := now + 3600000,
        error := some rateLimitMessage } ↔ 10 ≤ c) := by
  refine ⟨rfl, ?_, ?_⟩
  · unfold checkRateLimit
    by_cases hc : 10 ≤ c
    · simp only [Option.getD_some]
      rw [if_pos (by exact_mod_cast hc)]
      simpa using hc
    · simp only [Option.getD_some]
      rw [if_neg (by simpa [RATE_LIMIT_MAX] using hc)]
      simpa using hc
  · unfold checkRateLimit
    by_cases hc : 10 ≤ c
    · simp only [Option.getD_some]
      rw [if_pos (by exact_mod_cast hc)]
      simp [RATE_LIMIT_WINDOW_MS, hc]
    · simp only [Option.getD_some]
      rw [if_neg (by simpa [RATE_LIMIT_MAX] using hc)]
      simp [hc]

/-! Deduplication (claim C6). -/

theorem dedupe_foldl_pairwise (t : ℚ) (qs : List (List Char)) :
    ∀ acc : List (List Char),
    acc.Pairwise (fun a b => calculateSimilarity a b ≤ t) →
    (qs.foldl
      (fun unique q =>
        if unique.any (fun existing => t < calculateSimilarity existing q)
        then unique
        else unique ++ [q]) acc).Pairwise (fun a b => calculateSimilarity a b ≤ t) := by
  induction qs with
  | nil => intro acc hacc; exact hacc
  | cons q rest ih =>
    intro acc hacc
    simp only [List.foldl_cons]
    by_cases hq : acc.any (fun existing => decide (t < calculateSimilarity existing q)) = true
    · rw [if_pos]
      · exact ih acc hacc
      · simpa using hq
    · rw [if_neg]
      · refine ih (acc ++ [q]) ?_
        rw [List.pairwise_append]
        refine ⟨hacc, List.pairwise_singleton _ _, ?_⟩
        intro a ha b hb
        simp only [List.mem_singleton] at hb
        subst hb
        rw [List.any_eq_true] at hq
        push_neg at hq
        have := hq a ha
        exact le_of_not_lt (by simpa using this)
      · simpa using hq

/-- C6 amended: the output of deduplicateQuestions contains no two items
whose token-set Jaccard similarity is strictly greater than the
threshold: a candidate is accepted exactly when its similarity to every
already-accepted item is at most the threshold.  Similarity exactly equal
to the threshold does not count as duplicate. -/
theorem deduplicateQuestions_pairwise (questions : List (List Char)) (t : ℚ) :
    (deduplicateQuestions questions t).Pairwise
      (fun a b => calculateSimilarity a b ≤ t) := by
  unfold deduplicateQuestions
  exact dedupe_foldl_pairwise t questions [] (List.Pairwise.nil)

/-- Counterexample to C6 as stated: with threshold 1, two identical
questions have similarity 1, which is not strictly below the threshold,
yet both are kept. -/
theorem deduplicateQuestions_counterexample :
    deduplicateQuestions [['a'], ['a']] 1 = [['a'], ['a']] ∧
    calculateSimilarity ['a'] ['a'] = 1 := by
  have hsim : calculateSimilarity ['a'] ['a'] = 1 := by
    show ((1 : ℚ)) / ((1 : ℚ)) = 1
    norm_num
  refine ⟨?_, hsim⟩
  unfold deduplicateQuestions
  rw [List.foldl_cons, List.foldl_cons, List.foldl_nil]
  rw [if_neg (by simp; exact le_of_eq hsim), if_neg (by simp)]
  simp

/-! Chunk sizes (claims C2 and C3). -/

theorem lastIndexOf?_add_le (l pat : List Char) (i : Nat) (h : lastIndexOf? l pat = some i) :
    i + pat.length ≤ l.length := by
  unfold lastIndexOf? at h
  have hmem := List.mem_of_getLast?_eq_some h
  have h1 := (List.mem_filter.mp hmem).1
  have h2 := List.mem_range.mp h1
  omega

theorem sentenceBreakAt_le (area : List Char) (ps : List (List Char)) (v : Nat)
    (h : sentenceBreakAt area ps = some v) (hps : ∀ p ∈ ps, p ≠ []) : v ≤ area.length := by
  induction ps with
  | nil => simp [sentenceBreakAt] at h
  | cons p rest ih =>
    unfold sentenceBreakAt at h
    cases hli : lastIndexOf? area p with
    | some i =>
      rw [hli] at h
      cases h
      exact lastIndexOf?_add_le area p i hli
    | none =>
      rw [hli] at h
      exact ih h (fun q hq => hps q (List.mem_cons_of_mem _ hq))

theorem findBestSplitPoint_le (text : List Char) (target radius : Nat) :
    findBestSplitPoint text target radius ≤ target + radius := by
  unfold findBestSplitPoint
  dsimp only
  have harea : ((text.drop (target - radius)).take
      (min text.length (target + radius) - (target - radius))).length
      ≤ target + radius - (target - radius) := by
    calc ((text.drop (target - radius)).take
        (min text.length (target + radius) - (target - radius))).length
        ≤ min text.length (target + radius) - (target - radius) := List.length_take_le _ _
      _ ≤ target + radius - (target - radius) := by omega
  cases h1 : lastIndexOf? ((text.drop (target - radius)).take
      (min text.length (target + radius) - (target - radius))) ['\n', '\n'] with
  | some i =>
    dsimp only
    have := lastIndexOf?_add_le _ _ _ h1
    simp only [List.length_cons, List.length_nil] at this
    omega
  | none =>
    dsimp only
    cases h2 : sentenceBreakAt ((text.drop (target - radius)).take
        (min text.length (target + radius) - (target - radius))) sentencePatterns with
    | some v =>
      dsimp only
      have := sentenceBreakAt_le _ _ _ h2 (by decide)
      omega
    | none =>
      dsimp only
      cases h3 : lastIndexOf? ((text.drop (target - radius)).take
          (min text.length (target + radius) - (target - radius))) [' '] with
      | some i =>
        dsimp only
        have := lastIndexOf?_add_le _ _ _ h3
        simp only [List.length_cons, List.length_nil] at this
        omega
      | none =>
        dsimp only
        omega

theorem chunkLoopGo_mem_length_le (text : List Char) (opts : ChunkOptions) :
    ∀ fuel position acc,
    (∀ c ∈ acc, c.length ≤ opts.maxChunkSize + 200) →
    ∀ c ∈ chunkLoopGo text opts fuel position acc, c.length ≤ opts.maxChunkSize + 200 := by
  intro fuel
  induction fuel with
  | zero => intro position acc hacc; exact hacc
  | succ fuel ih =>
    intro position acc hacc c hc
    rw [chunkLoopGo] at hc
    by_cases hpos : position < text.length
    · rw [if_pos hpos] at hc
      by_cases hlast : text.length ≤ position + opts.maxChunkSize
      · rw [if_pos hlast] at hc
        rcases List.mem_append.mp hc with h | h
        · exact hacc c h
        · simp only [List.mem_singleton] at h
          subst h
          calc (trim (text.drop position)).length
              ≤ (text.drop position).length := trim_length_le _
            _ = text.length - position := by simp
            _ ≤ opts.maxChunkSize + 200 := by omega
      · rw [if_neg hlast] at hc
        refine ih _ _ ?_ c hc
        intro d hd
        by_cases hmin : opts.minChunkSize ≤
            (trim ((text.drop position).take
              (findBestSplitPoint text (position + opts.maxChunkSize) 200 - position))).length
        · rw [if_pos hmin] at hd
          rcases List.mem_append.mp hd with h | h
          · exact hacc d h
          · simp only [List.mem_singleton] at h
            subst h
            have hfb := findBestSplitPoint_le text (position + opts.maxChunkSize) 200
            calc (trim ((text.drop position).take
                  (findBestSplitPoint text (position + opts.maxChunkSize) 200 - position))).length
                ≤ ((text.drop position).take
                  (findBestSplitPoint text (position + opts.maxChunkSize) 200 - position)).length :=
                  trim_length_le _
              _ ≤ findBestSplitPoint text (position + opts.maxChunkSize) 200 - position :=
                  List.length_take_le _ _
              _ ≤ opts.maxChunkSize + 200 := by omega
        · rw [if_neg hmin] at hd
          exact hacc d hd
    · rw [if_neg hpos] at hc
      exact hacc c hc

/-- C3 amended: every chunk returned by chunkText has length at most
maxChunkSize + 200: the split point for a non-final chunk is found by a
bounded search within 200 characters around (not only before) the
candidate end position, so a chunk can overrun maxChunkSize by up to the
search radius; the final chunk never exceeds maxChunkSize. -/
theorem chunkText_chunk_length_le (text : List Char) (opts : ChunkOptions) :
    ∀ c ∈ (chunkText text opts).chunks, c.length ≤ opts.maxChunkSize + 200 := by
  intro c hc
  unfold chunkText at hc
  by_cases hsize : (cleanPdfText text).length ≤ opts.maxChunkSize
  · rw [if_pos hsize] at hc
    simp only [List.mem_singleton] at hc
    subst hc
    omega
  · rw [if_neg hsize] at hc
    exact chunkLoopGo_mem_length_le (cleanPdfText text) opts _ 0 [] (by simp) c hc

/-- Witness for chunkText_chunk_length_le on a concrete text. -/
theorem chunkText_chunk_length_le_witness :
    "abcde".toList ∈ (chunkText "abcde fghij".toList ⟨4, 0, 4⟩).chunks ∧
    ("abcde".toList).length ≤ 4 + 200 :=
  ⟨by decide, chunkText_chunk_length_le "abcde fghij".toList ⟨4, 0, 4⟩ "abcde".toList (by decide)⟩

/-- Counterexample to C3 as stated: with maxChunkSize 4 the first emitted
chunk has five characters, because the backward search runs forward as
well and finds the space one position past the candidate end. -/
theorem chunkText_counterexample :
    (chunkText "abcde fghij".toList ⟨4, 0, 4⟩).chunks.getD 0 [] = "abcde".toList ∧
    4 < ("abcde".toList).length := by decide

theorem chunkLoopGo_dropLast_min (text : List Char) (opts : ChunkOptions) :
    ∀ fuel position acc,
    (∀ c ∈ acc, opts.minChunkSize ≤ c.length) →
    ∀ c ∈ (chunkLoopGo text opts fuel position acc).dropLast, opts.minChunkSize ≤ c.length := by
  intro fuel
  induction fuel with
  | zero =>
    intro position acc hacc c hc
    exact hacc c ((List.dropLast_sublist _).subset hc)
  | succ fuel ih =>
    intro position acc hacc c hc
    rw [chunkLoopGo] at hc
    by_cases hpos : position < text.length
    · rw [if_pos hpos] at hc
      by_cases hlast : text.length ≤ position + opts.maxChunkSize
      · rw [if_pos hlast] at hc
        rw [List.dropLast_concat] at hc
        exact hacc c hc
      · rw [if_neg hlast] at hc
        refine ih _ _ ?_ c hc
        intro d hd
        by_cases hmin : opts.minChunkSize ≤
            (trim ((text.drop position).take
              (findBestSplitPoint text (position + opts.maxChunkSize) 200 - position))).length
        · rw [if_pos hmin] at hd
          rcases List.mem_append.mp hd with h | h
          · exact hacc d h
          · simp only [List.mem_singleton] at h
            subst h
            exact hmin
        · rw [if_neg hmin] at hd
          exact hacc d hd
    · rw [if_neg hpos] at hc
      exact hacc c ((List.dropLast_sublist _).subset hc)

/-- C2 amended: every chunk emitted by chunkText except possibly the
final one has trimmed length at least minChunkSize; the final chunk (the
remainder of the text) is emitted unconditionally, without the minimum
size check, and may be shorter. -/
theorem chunkText_dropLast_min (text : List Char) (opts : ChunkOptions) :
    ∀ c ∈ (chunkText text opts).chunks.dropLast, opts.minChunkSize ≤ c.length := by
  intro c hc
  unfold chunkText at hc
  by_cases hsize : (cleanPdfText text).length ≤ opts.maxChunkSize
  · rw [if_pos hsize] at hc
    simp at hc
  · rw [if_neg hsize] at hc
    exact chunkLoopGo_dropLast_min (cleanPdfText text) opts _ 0 [] (by simp) c hc

/-- Witness for chunkText_dropLast_min on a concrete text. -/
theorem chunkText_dropLast_min_witness :
    List.replicate 5 'a' ∈ (chunkText (List.replicate 12 'a') ⟨5, 0, 5⟩).chunks.dropLast ∧
    5 ≤ (List.replicate 5 'a').length :=
  ⟨by decide, chunkText_dropLast_min (List.replicate 12 'a') ⟨5, 0, 5⟩
    (List.replicate 5 'a') (by decide)⟩

/-- Counterexample to C2 as stated: with minChunkSize 5 the final chunk
of a twelve-character text has only two characters, because the final
remainder is pushed without the minimum size check. -/
theorem chunkText_minsize_counterexample :
    (chunkText (List.replicate 12 'a') ⟨5, 0, 5⟩).chunks
      = [List.replicate 5 'a', List.replicate 5 'a', ['a', 'a']] ∧
    ¬ 5 ≤ (['a', 'a'] : List Char).length := by decide

/-! Representative chunk selection (claim C5). -/

theorem insertIdx_mid (x b : List Char) : ∀ ms : List (List Char),
    (ms ++ [b]).insertIdx ms.length x = ms ++ [x, b] := by
  intro ms
  induction ms with
  | nil => rfl
  | cons m ms ih =>
    simp only [List.cons_append, List.length_cons, List.insertIdx_succ_cons, ih]

theorem insertIdx_before_last (x b : List Char) (ms : List (List Char)) (a : List Char) :
    (a :: ms ++ [b]).insertIdx (ms.length + 1) x = a :: ms ++ [x, b] := by
  simp only [List.cons_append, List.insertIdx_succ_cons, insertIdx_mid]

theorem foldl_insertIdx_shape (f : Nat → List Char) (a b : List Char) (n : Nat) :
    (List.range n).foldl (fun sel i => sel.insertIdx (sel.length - 1) (f i)) [a, b]
      = a :: (List.range n).map f ++ [b] := by
  induction n with
  | zero => rfl
  | succ n ih =>
    rw [List.range_succ, List.foldl_append, ih]
    simp only [List.foldl_cons, List.foldl_nil, List.range_succ, List.map_append,
      List.map_cons, List.map_nil]
    have hlen : (a :: (List.range n).map f ++ [b]).length - 1
        = ((List.range n).map f).length + 1 := by
      simp
    rw [hlen, insertIdx_before_last]
    simp

theorem map_getD_sublist (mid : List (List Char)) (g : Nat → Nat) (rs : Nat)
    (hmono : ∀ i j, i < j → j < rs → g i < g j)
    (hlt : ∀ i, i < rs → g i < mid.length) :
    ((List.range rs).map (fun i => mid.getD (g i) [])).Sublist mid := by
  have hsm : StrictMono (fun ix => if ix < rs then g ix else mid.length + ix) := by
    intro p q hpq
    dsimp only
    by_cases hq : q < rs
    · rw [if_pos (by omega), if_pos hq]
      exact hmono p q hpq hq
    · rw [if_neg hq]
      by_cases hp : p < rs
      · rw [if_pos hp]
        have := hlt p hp
        omega
      · rw [if_neg hp]
        omega
  refine List.sublist_of_orderEmbedding_get?_eq (OrderEmbedding.ofStrictMono _ hsm) ?_
  intro ix
  by_cases hix : ix < rs
  · rw [List.get?_eq_getElem?, List.get?_eq_getElem?]
    rw [List.getElem?_map, List.getElem?_range hix]
    simp only [OrderEmbedding.coe_ofStrictMono, if_pos hix, Option.map_some']
    rw [List.getElem?_eq_getElem (hlt ix hix)]
    simp [List.getD_eq_getElem?_getD, List.getElem?_eq_getElem (hlt ix hix)]
  · rw [List.get?_eq_getElem?, List.get?_eq_getElem?]
    have h1 : ((List.range rs).map (fun i => mid.getD (g i) [])).length ≤ ix := by
      simp only [List.length_map, List.length_range]
      omega
    rw [List.getElem?_eq_none h1]
    simp only [OrderEmbedding.coe_ofStrictMono, if_neg hix]
    rw [List.getElem?_eq_none (by omega)]

/-- C5 amended: for maxChunks at least 1 and more chunks than maxChunks,
selectRepresentativeChunks returns exactly maxChunks chunks in original
document order (a sublist of the input), always starting with the first
original chunk and, when maxChunks exceeds 1, ending with the last
original chunk.  For maxChunks = 0 the function still returns the first
chunk, so the count clause needs maxChunks ≥ 1. -/
theorem selectRepresentativeChunks_spec (chunks : List (List Char)) (maxChunks : Nat)
    (h1 : 1 ≤ maxChunks) (h2 : maxChunks < chunks.length) :
    (selectRepresentativeChunks chunks maxChunks).length = maxChunks ∧
    (selectRepresentativeChunks chunks maxChunks).Sublist chunks ∧
    (selectRepresentativeChunks chunks maxChunks).head? = chunks.head? ∧
    (1 < maxChunks →
      (selectRepresentativeChunks chunks maxChunks).getLast? = chunks.getLast?) := by
  obtain ⟨x, xs, rfl⟩ : ∃ x xs, chunks = x :: xs := by
    cases chunks with
    | nil => simp only [List.length_nil] at h2; omega
    | cons x xs => exact ⟨x, xs, rfl⟩
  unfold selectRepresentativeChunks
  rw [if_neg (by omega)]
  dsimp only
  by_cases hm1 : 1 < maxChunks
  · rw [if_pos hm1]
    have hxs : xs ≠ [] := by
      intro hnil
      subst hnil
      simp only [List.length_cons, List.length_nil] at h2
      omega
    have hlast : (x :: xs).getLastD [] = xs.getLast hxs := by
      rw [List.getLastD_eq_getLast?, List.getLast?_eq_getLast (x :: xs) (by simp),
        List.getLast_cons hxs]
      rfl
    have hlast? : (x :: xs).getLast? = some (xs.getLast hxs) := by
      rw [List.getLast?_eq_getLast (x :: xs) (by simp), List.getLast_cons hxs]
    by_cases hm2 : 0 < maxChunks - 2
    · rw [if_pos ⟨by simp only [List.length_append, List.length_singleton]; omega,
        by simp only [List.length_cons] at h2 ⊢; omega⟩]
      set mid := ((x :: xs).drop 1).dropLast with hmid
      set rs := maxChunks - ([(x :: xs).headD []] ++ [(x :: xs).getLastD []]).length with hrs
      have hrs2 : rs = maxChunks - 2 := by
        rw [hrs]
        simp
      set step := mid.length / (rs + 1) with hstep
      have hmidlen : mid.length = xs.length - 1 := by
        rw [hmid]
        simp
      have hmidge : rs + 1 ≤ mid.length := by
        rw [hrs2, hmidlen]
        simp only [List.length_cons] at h2
        omega
      have hstep1 : 1 ≤ step := by
        rw [hstep]
        exact Nat.one_le_div_iff (by omega) |>.mpr hmidge
      have hbound : rs * step ≤ mid.length - 1 := by
        have hds : (rs + 1) * step ≤ mid.length := by
          rw [hstep, Nat.mul_comm]
          exact Nat.div_mul_le_self _ _
        have hsum : rs * step + step = (rs + 1) * step := by ring
        omega
      have hmin : ∀ i, i < rs → min ((i + 1) * step) (mid.length - 1) = (i + 1) * step := by
        intro i hi
        have hle : (i + 1) * step ≤ rs * step := Nat.mul_le_mul_right _ (by omega)
        omega
      rw [show [(x :: xs).headD []] ++ [(x :: xs).getLastD []]
          = [(x :: xs).headD [], (x :: xs).getLastD []] from rfl]
      rw [foldl_insertIdx_shape]
      have hmap : (List.range rs).map
          (fun i => mid.getD (min ((i + 1) * step) (mid.length - 1)) [])
          = (List.range rs).map (fun i => mid.getD ((i + 1) * step) []) := by
        refine List.map_congr_left ?_
        intro i hi
        rw [hmin i (List.mem_range.mp hi)]
      rw [hmap]
      have hpicks : ((List.range rs).map (fun i => mid.getD ((i + 1) * step) [])).Sublist mid := by
        refine map_getD_sublist mid (fun i => (i + 1) * step) rs ?_ ?_
        · intro i j hij hj
          show (i + 1) * step < (j + 1) * step
          exact (Nat.mul_lt_mul_right (by omega)).mpr (by omega)
        · intro i hi
          show (i + 1) * step < mid.length
          have hle : (i + 1) * step ≤ rs * step := Nat.mul_le_mul_right _ (by omega)
          omega
      have hdecomp : x :: xs = x :: (mid ++ [xs.getLast hxs]) := by
        rw [hmid]
        simp only [List.drop_one, List.tail_cons]
        rw [List.dropLast_append_getLast hxs]
      refine ⟨?_, ?_, ?_, ?_⟩
      · simp only [List.length_append, List.length_cons, List.length_map, List.length_range,
          List.length_nil]
        omega
      · conv_rhs => rw [hdecomp]
        simp only [List.headD_cons]
        refine List.Sublist.cons₂ x ?_
        rw [hlast]
        exact List.Sublist.append hpicks (List.Sublist.refl _)
      · simp
      · intro hm
        rw [hlast?]
        simp only [List.headD_cons]
        rw [List.getLast?_append]
        simp [hlast]
        rw [hlast?]
        rfl
    · have hm2' : maxChunks = 2 := by omega
      rw [if_neg]
      · refine ⟨?_, ?_, ?_, ?_⟩
        · rw [hm2']
          simp
        · simp only [List.headD_cons]
          refine List.Sublist.cons₂ x ?_
          rw [hlast]
          exact List.singleton_sublist.mpr (List.getLast_mem hxs)
        · simp
        · intro hm
          rw [hlast?]
          simp [hlast]
          rw [hlast?]
          rfl
      · intro hcon
        rcases hcon with ⟨hc1, hc2⟩
        simp only [List.length_append, List.length_singleton] at hc1
        omega
  · have hm1' : maxChunks = 1 := by omega
    rw [if_neg hm1]
    rw [if_neg]
    · refine ⟨by simp [hm1'], ?_, by simp, by omega⟩
      simp only [List.headD_cons]
      exact List.Sublist.cons₂ x (List.nil_sublist _)
    · intro hcon
      rcases hcon with ⟨hc1, hc2⟩
      simp only [List.length_singleton] at hc1
      omega

/-- Witness for selectRepresentativeChunks_spec on five chunks and four
slots. -/
theorem selectRepresentativeChunks_spec_witness :
    (selectRepresentativeChunks [['a'], ['b'], ['c'], ['d'], ['e']] 4).length = 4 ∧
    (selectRepresentativeChunks [['a'], ['b'], ['c'], ['d'], ['e']] 4).Sublist
      [['a'], ['b'], ['c'], ['d'], ['e']] ∧
    (selectRepresentativeChunks [['a'], ['b'], ['c'], ['d'], ['e']] 4).head?
      = ([['a'], ['b'], ['c'], ['d'], ['e']] : List (List Char)).head? ∧
    (1 < 4 → (selectRepresentativeChunks [['a'], ['b'], ['c'], ['d'], ['e']] 4).getLast?
      = ([['a'], ['b'], ['c'], ['d'], ['e']] : List (List Char)).getLast?) :=
  selectRepresentativeChunks_spec [['a'], ['b'], ['c'], ['d'], ['e']] 4
    (by norm_num) (by norm_num)

/-- Counterexample to C5 as stated: with maxChunks 0 and one chunk the
precondition len(chunks) > maxChunks holds, yet the function returns one
chunk, not exactly maxChunks = 0 chunks. -/
theorem selectRepresentativeChunks_counterexample :
    (selectRepresentativeChunks [['a']] 0).length = 1 ∧
    ([['a']] : List (List Char)).length > 0 := by decide

/-! Cleaning (claim C10). -/

theorem collapseWsGo_no_newline (fuel : Nat) : ∀ l, '\n' ∉ collapseWsGo fuel l := by
  induction fuel with
  | zero => intro l; simp [collapseWsGo]
  | succ fuel ih =>
    intro l
    cases l with
    | nil => simp [collapseWsGo]
    | cons c rest =>
      rw [collapseWsGo]
      by_cases hc : isWs c = true
      · rw [if_pos hc]
        intro hmem
        rcases List.mem_cons.mp hmem with h | h
        · exact absurd h (by decide)
        · exact ih _ h
      · rw [if_neg hc]
        intro hmem
        rcases List.mem_cons.mp hmem with h | h
        · subst h
          exact hc (by decide)
        · exact ih _ h

theorem stripPageTokensGo_subset (fuel : Nat) :
    ∀ prev l c, c ∈ stripPageTokensGo fuel prev l → c ∈ l := by
  induction fuel with
  | zero => intro prev l c hc; simp [stripPageTokensGo] at hc
  | succ fuel ih =>
    intro prev l c hc
    cases l with
    | nil => simp [stripPageTokensGo] at hc
    | cons a rest =>
      rw [stripPageTokensGo.eq_def] at hc
      dsimp only at hc
      by_cases hb : boundaryBefore prev = true
      · rw [if_pos hb] at hc
        cases hmp : matchPageAt (a :: rest) with
        | some n =>
          rw [hmp] at hc
          exact List.drop_subset _ _ (ih _ _ c hc)
        | none =>
          rw [hmp] at hc
          rcases List.mem_cons.mp hc with h | h
          · subst h; exact List.mem_cons_self _ _
          · exact List.mem_cons_of_mem _ (ih _ _ c h)
      · rw [if_neg hb] at hc
        rcases List.mem_cons.mp hc with h | h
        · subst h; exact List.mem_cons_self _ _
        · exact List.mem_cons_of_mem _ (ih _ _ c h)

theorem stripDigitLinesGo_subset (fuel : Nat) :
    ∀ flag l c, c ∈ stripDigitLinesGo fuel flag l → c ∈ l := by
  induction fuel with
  | zero => intro flag l c hc; simp [stripDigitLinesGo] at hc
  | succ fuel ih =>
    intro flag l c hc
    cases l with
    | nil => simp [stripDigitLinesGo] at hc
    | cons a rest =>
      rw [stripDigitLinesGo] at hc
      have hafter : ∀ d, d ∈ rest.dropWhile Char.isDigit → d ∈ a :: rest :=
        fun d hd => List.mem_cons_of_mem _ ((rest.dropWhile_sublist _).subset hd)
      have hws : ∀ d, d ∈ (rest.dropWhile Char.isDigit).takeWhile (fun e => isWs e) →
          d ∈ a :: rest :=
        fun d hd => hafter d (((rest.dropWhile Char.isDigit).takeWhile_sublist _).subset hd)
      have haf2 : ∀ d, d ∈ (rest.dropWhile Char.isDigit).dropWhile (fun e => isWs e) →
          d ∈ a :: rest :=
        fun d hd => hafter d (((rest.dropWhile Char.isDigit).dropWhile_sublist _).subset hd)
      by_cases hg : (flag = true ∧ a.isDigit = true)
      · rw [if_pos hg] at hc
        dsimp only at hc
        cases hm : (rest.dropWhile Char.isDigit).dropWhile (fun e => isWs e) with
        | nil =>
          rw [hm] at hc
          simp at hc
        | cons b bs =>
          rw [hm] at hc
          by_cases hnl : '\n' ∈ (rest.dropWhile Char.isDigit).takeWhile (fun e => isWs e)
          · rw [if_pos hnl] at hc
            have := ih _ _ c hc
            rcases List.mem_append.mp this with h | h
            · exact hws c ((List.drop_subset _ _) h)
            · rw [← hm] at h
              exact haf2 c h
          · rw [if_neg hnl] at hc
            rcases List.mem_append.mp hc with h | h
            · rcases List.mem_append.mp h with h1 | h1
              · rcases List.mem_cons.mp h1 with h2 | h2
                · subst h2; exact List.mem_cons_self _ _
                · exact List.mem_cons_of_mem _ ((rest.takeWhile_sublist _).subset h2)
              · exact hws c h1
            · have hmem2 := ih _ _ c h
              rw [← hm] at hmem2
              exact haf2 c hmem2
      · rw [if_neg hg] at hc
        rcases List.mem_cons.mp hc with h | h
        · subst h; exact List.mem_cons_self _ _
        · exact List.mem_cons_of_mem _ (ih _ _ c h)

theorem collapseNl3Go_subset (fuel : Nat) :
    ∀ l c, c ∈ collapseNl3Go fuel l → c ∈ l := by
  induction fuel with
  | zero => intro l c hc; simp [collapseNl3Go] at hc
  | succ fuel ih =>
    intro l c hc
    cases l with
    | nil => simp [collapseNl3Go] at hc
    | cons a rest =>
      rw [collapseNl3Go] at hc
      by_cases ha : a = '\n'
      · rw [if_pos ha] at hc
        dsimp only at hc
        rcases List.mem_append.mp hc with h | h
        · by_cases hrun : 3 ≤ (a :: rest.takeWhile (fun d => d = '\n')).length
          · rw [if_pos hrun] at h
            have : c = '\n' := by
              rcases List.mem_cons.mp h with h1 | h1
              · exact h1
              · simpa using h1
            subst this
            rw [← ha]
            exact List.mem_cons_self _ _
          · rw [if_neg hrun] at h
            rcases List.mem_cons.mp h with h1 | h1
            · subst h1; exact List.mem_cons_self _ _
            · exact List.mem_cons_of_mem _ ((rest.takeWhile_sublist _).subset h1)
        · exact List.mem_cons_of_mem _ ((rest.dropWhile_sublist _).subset (ih _ c h))
      · rw [if_neg ha] at hc
        rcases List.mem_cons.mp hc with h | h
        · subst h; exact List.mem_cons_self _ _
        · exact List.mem_cons_of_mem _ (ih _ c h)

theorem cleanPdfText_no_newline (text : List Char) : '\n' ∉ cleanPdfText text := by
  intro hmem
  unfold cleanPdfText at hmem
  have h1 := trim_subset _ _ hmem
  unfold collapseNl3 at h1
  have h2 := collapseNl3Go_subset _ _ _ h1
  unfold stripDigitLines at h2
  have h3 := stripDigitLinesGo_subset _ _ _ _ h2
  unfold stripPageTokens at h3
  have h4 := stripPageTokensGo_subset _ _ _ _ h3
  unfold collapseWs at h4
  exact collapseWsGo_no_newline _ _ h4

theorem stripDigitLinesGo_false_eq (fuel : Nat) :
    ∀ l : List Char, l.length ≤ fuel → '\n' ∉ l →
      stripDigitLinesGo fuel false l = l := by
  induction fuel with
  | zero =>
    intro l hlen _
    have hl : l = [] := List.length_eq_zero.mp (Nat.le_zero.mp hlen)
    subst hl
    rfl
  | succ fuel ih =>
    intro l hlen hnl
    cases l with
    | nil => rfl
    | cons a rest =>
      have ha : a ≠ '\n' := fun h => hnl (h ▸ List.mem_cons_self _ _)
      have hlen' : rest.length ≤ fuel := by
        simp only [List.length_cons] at hlen; omega
      rw [stripDigitLinesGo, if_neg (by simp), decide_eq_false ha,
        ih rest hlen' (fun h => hnl (List.mem_cons_of_mem _ h))]

theorem stripDigitLinesGo_true_eq (fuel : Nat) (l : List Char)
    (hlen : l.length ≤ fuel) (hnl : '\n' ∉ l) :
    stripDigitLinesGo fuel true l =
      if l.takeWhile Char.isDigit ≠ [] ∧
          (l.dropWhile Char.isDigit).dropWhile (fun d => isWs d) = [] then
        []
      else l := by
  cases l with
  | nil =>
    rw [if_neg (by simp)]
    cases fuel with
    | zero => rfl
    | succ fuel => rfl
  | cons a rest =>
    cases fuel with
    | zero => simp at hlen
    | succ fuel =>
      have hlen' : rest.length ≤ fuel := by
        simp only [List.length_cons] at hlen; omega
      have hnlrest : '\n' ∉ rest := fun h => hnl (List.mem_cons_of_mem _ h)
      have ha : a ≠ '\n' := fun h => hnl (h ▸ List.mem_cons_self _ _)
      rw [stripDigitLinesGo]
      by_cases hd : a.isDigit = true
      · rw [if_pos ⟨rfl, hd⟩]
        dsimp only
        cases hm : (rest.dropWhile Char.isDigit).dropWhile (fun d => isWs d) with
        | nil =>
          dsimp only
          rw [if_pos ⟨by simp [List.takeWhile_cons_of_pos hd],
            by rw [List.dropWhile_cons_of_pos hd, hm]⟩]
        | cons b bs =>
          have hnlws : '\n' ∉ (rest.dropWhile Char.isDigit).takeWhile
              (fun d => isWs d) :=
            fun h => hnlrest ((rest.dropWhile_sublist _).subset
              (((rest.dropWhile Char.isDigit).takeWhile_sublist _).subset h))
          have hlen2 : ((rest.dropWhile Char.isDigit).dropWhile
              (fun d => isWs d)).length ≤ fuel :=
            le_trans (le_trans
              ((rest.dropWhile Char.isDigit).dropWhile_sublist _).length_le
              (rest.dropWhile_sublist _).length_le) hlen'
          have hnl2 : '\n' ∉ (rest.dropWhile Char.isDigit).dropWhile
              (fun d => isWs d) :=
            fun h => hnlrest ((rest.dropWhile_sublist _).subset
              (((rest.dropWhile Char.isDigit).dropWhile_sublist _).subset h))
          rw [hm] at hlen2 hnl2
          dsimp only
          rw [if_neg hnlws, stripDigitLinesGo_false_eq fuel (b :: bs) hlen2 hnl2,
            if_neg (fun hcond => by
              rw [List.dropWhile_cons_of_pos hd, hm] at hcond
              exact List.cons_ne_nil _ _ hcond.2),
            ← hm, List.append_assoc, List.takeWhile_append_dropWhile,
            List.cons_append, List.takeWhile_append_dropWhile]
      · have hd' : a.isDigit = false := by
          cases h : a.isDigit
          · rfl
          · exact absurd h hd
        rw [if_neg (fun h => hd h.2), decide_eq_false ha,
          stripDigitLinesGo_false_eq fuel rest hlen' hnlrest,
          if_neg (fun hcond => hcond.1 (List.takeWhile_cons_of_neg (by simp [hd'])))]

theorem collapseNl3Go_eq_of_no_newline (fuel : Nat) :
    ∀ l : List Char, l.length ≤ fuel → '\n' ∉ l → collapseNl3Go fuel l = l := by
  induction fuel with
  | zero =>
    intro l hlen _
    have hl : l = [] := List.length_eq_zero.mp (Nat.le_zero.mp hlen)
    subst hl
    rfl
  | succ fuel ih =>
    intro l hlen hnl
    cases l with
    | nil => rfl
    | cons a rest =>
      have ha : a ≠ '\n' := fun h => hnl (h ▸ List.mem_cons_self _ _)
      have hlen' : rest.length ≤ fuel := by
        simp only [List.length_cons] at hlen; omega
      rw [collapseNl3Go, if_neg ha,
        ih rest hlen' (fun h => hnl (List.mem_cons_of_mem _ h))]

theorem cleanPdfText_eq_described (text : List Char) :
    cleanPdfText text = describedCleanPdfText text := by
  have hnl : '\n' ∉ stripPageTokens (collapseWs text) := by
    intro h
    unfold stripPageTokens at h
    have h4 := stripPageTokensGo_subset _ _ _ _ h
    unfold collapseWs at h4
    exact collapseWsGo_no_newline _ _ h4
  unfold cleanPdfText describedCleanPdfText
  rw [stripDigitLines,
    stripDigitLinesGo_true_eq _ (stripPageTokens (collapseWs text)) le_rfl hnl]
  by_cases hc : (stripPageTokens (collapseWs text)).takeWhile Char.isDigit ≠ [] ∧
      ((stripPageTokens (collapseWs text)).dropWhile Char.isDigit).dropWhile
        (fun d => isWs d) = []
  · rw [if_pos hc]
    rfl
  · rw [if_neg hc, collapseNl3,
      collapseNl3Go_eq_of_no_newline _ (stripPageTokens (collapseWs text)) le_rfl hnl]

/-- C10 amended: cleanPdfText collapses every whitespace run, newlines
included, to a single space, removes the "Page N (of M)" furniture
(leaving its surrounding spaces), and trims; because no newline survives
the initial collapse, the 3+-newline rule never fires, the output never
contains a newline, and the multiline standalone-page-number rule
degenerates to a whole-string test: it erases the remaining string
exactly when that string is one run of digits followed only by
whitespace (so "42" cleans to the empty string while " 42" keeps its
digits). -/
theorem cleanPdfText_spec :
    (∀ text : List Char,
      cleanPdfText text = describedCleanPdfText text ∧ '\n' ∉ cleanPdfText text) ∧
    cleanPdfText "a Page 3 of 10 b".toList = "a  b".toList ∧
    cleanPdfText " a \t b ".toList = "a b".toList ∧
    cleanPdfText "a\n\n\nb".toList = "a b".toList ∧
    cleanPdfText "42".toList = [] ∧
    cleanPdfText " 42".toList = "42".toList :=
  ⟨fun text => ⟨cleanPdfText_eq_described text, cleanPdfText_no_newline text⟩,
    by decide, by decide, by decide, by decide, by decide⟩

/-- Counterexample to C10 as stated: three consecutive newlines are not
collapsed to exactly two newlines but to a single space, and a standalone
page-number line survives as an inline number. -/
theorem cleanPdfText_counterexample :
    cleanPdfText "a\n\n\nb".toList = "a b".toList ∧
    cleanPdfText "a\n\n\nb".toList ≠ "a\n\nb".toList ∧
    cleanPdfText "a\n42\nb".toList = "a 42 b".toList := by decide

/-! Coverage structure of chunkText (claim C1). -/

theorem lastIndexOf?_isPre (l pat : List Char) (i : Nat) (h : lastIndexOf? l pat = some i) :
    pat <+: l.drop i := by
  unfold lastIndexOf? at h
  have hmem := List.mem_of_getLast?_eq_some h
  have h2 := (List.mem_filter.mp hmem).2
  rw [List.isPrefixOf_iff_prefix] at h2
  exact h2

theorem getLast?_drop_of_lt (l : List Char) (n : Nat) (h : n < l.length) :
    (l.drop n).getLast? = l.getLast? := by
  conv_rhs => rw [← List.take_append_drop n l]
  rw [List.getLast?_append]
  cases hx : (l.drop n).getLast? with
  | none =>
    rw [List.getLast?_eq_none_iff] at hx
    have hlen := congrArg List.length hx
    simp only [List.length_drop, List.length_nil] at hlen
    omega
  | some d => simp

theorem prefix_full_getLast (area pat : List Char) (i : Nat) (hne : pat ≠ [])
    (hpre : pat <+: area.drop i) (hlen : i + pat.length = area.length) :
    area.getLast? = pat.getLast? := by
  obtain ⟨t, ht⟩ := hpre
  have hdl : (area.drop i).length = area.length - i := by simp
  have ht0 : t = [] := by
    have hc := congrArg List.length ht
    simp only [List.length_append] at hc
    rw [hdl] at hc
    have : t.length = 0 := by omega
    exact List.length_eq_zero.mp this
  subst ht0
  rw [List.append_nil] at ht
  have hplen : 1 ≤ pat.length := by
    cases pat with
    | nil => exact absurd rfl hne
    | cons _ _ => simp
  rw [← getLast?_drop_of_lt area i (by omega), ht]

theorem sentenceBreakAt_cases (area : List Char) (v : Nat) :
    ∀ ps : List (List Char), sentenceBreakAt area ps = some v →
    ∃ p ∈ ps, ∃ i, lastIndexOf? area p = some i ∧ v = i + p.length := by
  intro ps
  induction ps with
  | nil => intro h; simp [sentenceBreakAt] at h
  | cons p rest ih =>
    intro h
    unfold sentenceBreakAt at h
    cases hli : lastIndexOf? area p with
    | some i =>
      rw [hli] at h
      cases h
      exact ⟨p, List.mem_cons_self _ _, i, hli, rfl⟩
    | none =>
      rw [hli] at h
      obtain ⟨q, hq, i, hqi, hv⟩ := ih h
      exact ⟨q, List.mem_cons_of_mem _ hq, i, hqi, hv⟩

theorem findBestSplitPoint_lt (T : List Char) (target : Nat)
    (htarget : target < T.length)
    (hlast : ∀ c, T.getLast? = some c → isWs c = false)
    (hnl : '\n' ∉ T) :
    findBestSplitPoint T target 200 < T.length := by
  have hstople : min T.length (target + 200) ≤ T.length := Nat.min_le_left _ _
  have hstartle : target - 200 ≤ target := Nat.sub_le _ _
  have hstartlt : target - 200 < T.length := by omega
  have hareasub : ∀ c ∈ (T.drop (target - 200)).take
      (min T.length (target + 200) - (target - 200)), c ∈ T := by
    intro c hc
    exact (T.drop_subset _) ((List.take_subset _ _) hc)
  have hareaeq : min T.length (target + 200) = T.length →
      (T.drop (target - 200)).take (min T.length (target + 200) - (target - 200))
        = T.drop (target - 200) := by
    intro hst
    rw [hst]
    refine List.take_of_length_le ?_
    simp
  have hareagetLast : min T.length (target + 200) = T.length →
      ((T.drop (target - 200)).take
        (min T.length (target + 200) - (target - 200))).getLast? = T.getLast? := by
    intro hst
    rw [hareaeq hst]
    exact getLast?_drop_of_lt T _ hstartlt
  have hareal : ((T.drop (target - 200)).take
      (min T.length (target + 200) - (target - 200))).length
      = min T.length (target + 200) - (target - 200) := by
    rw [List.length_take, List.length_drop]
    omega
  unfold findBestSplitPoint
  dsimp only
  cases h1 : lastIndexOf? ((T.drop (target - 200)).take
      (min T.length (target + 200) - (target - 200))) ['\n', '\n'] with
  | some i =>
    exfalso
    have hpre := lastIndexOf?_isPre _ _ _ h1
    have h0 : '\n' ∈ ((T.drop (target - 200)).take
        (min T.length (target + 200) - (target - 200))).drop i := hpre.subset (by simp)
    exact hnl (hareasub _ ((List.drop_subset _ _) h0))
  | none =>
    dsimp only
    cases h2 : sentenceBreakAt ((T.drop (target - 200)).take
        (min T.length (target + 200) - (target - 200))) sentencePatterns with
    | some v =>
      dsimp only
      obtain ⟨p, hp, i, hpi, hv⟩ := sentenceBreakAt_cases _ _ _ h2
      have hpre := lastIndexOf?_isPre _ _ _ hpi
      have hile := lastIndexOf?_add_le _ _ _ hpi
      have hp' : p = ['.', ' '] ∨ p = ['?', ' '] ∨ p = ['!', ' '] ∨ p = ['.', '\n'] ∨
          p = ['?', '\n'] ∨ p = ['!', '\n'] := by
        simpa only [sentencePatterns, List.mem_cons, List.not_mem_nil, or_false] using hp
      have hplen : p.length = 2 := by
        rcases hp' with rfl | rfl | rfl | rfl | rfl | rfl <;> rfl
      by_cases hnlp : '\n' ∈ p
      · exfalso
        exact hnl (hareasub _ ((List.drop_subset _ _) (hpre.subset hnlp)))
      · have hsp : p.getLast? = some ' ' := by
          rcases hp' with rfl | rfl | rfl | rfl | rfl | rfl
          · rfl
          · rfl
          · rfl
          · exact absurd (by simp) hnlp
          · exact absurd (by simp) hnlp
          · exact absurd (by simp) hnlp
        by_contra hge
        push_neg at hge
        have hle2 : target - 200 + v ≤ min T.length (target + 200) := by
          rw [hareal] at hile
          omega
        have heq1 : target - 200 + v = T.length := by omega
        have hstopeq : min T.length (target + 200) = T.length := by omega
        have hveq : i + p.length = ((T.drop (target - 200)).take
            (min T.length (target + 200) - (target - 200))).length := by
          rw [hareal]
          omega
        have hgl := prefix_full_getLast _ p i (by rw [← List.length_pos_iff_ne_nil]; omega)
          hpre hveq
        rw [hareagetLast hstopeq, hsp] at hgl
        have := hlast ' ' hgl
        simp [isWs] at this
    | none =>
      dsimp only
      cases h3 : lastIndexOf? ((T.drop (target - 200)).take
          (min T.length (target + 200) - (target - 200))) [' '] with
      | some i =>
        dsimp only
        have hpre := lastIndexOf?_isPre _ _ _ h3
        have hile := lastIndexOf?_add_le _ _ _ h3
        by_contra hge
        push_neg at hge
        simp only [List.length_cons, List.length_nil] at hile
        have hle2 : target - 200 + i + 1 ≤ min T.length (target + 200) := by
          rw [hareal] at hile
          omega
        have hstopeq : min T.length (target + 200) = T.length := by omega
        have hveq : i + ([' '] : List Char).length = ((T.drop (target - 200)).take
            (min T.length (target + 200) - (target - 200))).length := by
          rw [hareal]
          simp only [List.length_cons, List.length_nil]
          omega
        have hgl := prefix_full_getLast _ [' '] i (by simp) hpre hveq
        rw [hareagetLast hstopeq] at hgl
        have := hlast ' ' (by rw [hgl]; rfl)
        simp [isWs] at this
      | none =>
        dsimp only
        omega

theorem emitIntervals_cons_cons (text : List Char) (m : Nat) (s e : Nat) (iv2 : Nat × Nat)
    (ivs : List (Nat × Nat)) :
    emitIntervals text m ((s, e) :: iv2 :: ivs)
      = (if m ≤ (trim ((text.drop s).take (e - s))).length
         then [trim ((text.drop s).take (e - s))] else [])
        ++ emitIntervals text m (iv2 :: ivs) := rfl

theorem chunkGo_spec (T : List Char) (opts : ChunkOptions)
    (hmax : 1 ≤ opts.maxChunkSize)
    (hlastc : ∀ c, T.getLast? = some c → isWs c = false)
    (hnl : '\n' ∉ T) :
    ∀ fuel p, p < T.length → T.length ≤ p + fuel →
      (∀ acc, chunkLoopGo T opts fuel p acc
        = acc ++ emitIntervals T opts.minChunkSize (chunkIntervalsGo T opts fuel p)) ∧
      (∃ e, (chunkIntervalsGo T opts fuel p).head? = some (p, e)) ∧
      ((chunkIntervalsGo T opts fuel p).getLast?.map Prod.snd = some T.length) ∧
      List.Chain' (fun a b => b.1 = max (a.1 + 1) (a.2 - opts.overlapSize))
        (chunkIntervalsGo T opts fuel p) := by
  intro fuel
  induction fuel with
  | zero => intro p hp hle; omega
  | succ fuel ih =>
    intro p hp hle
    by_cases hfin : T.length ≤ p + opts.maxChunkSize
    · have hloop : ∀ acc, chunkLoopGo T opts (fuel + 1) p acc = acc ++ [trim (T.drop p)] := by
        intro acc
        rw [chunkLoopGo, if_pos hp, if_pos hfin]
      have hiv : chunkIntervalsGo T opts (fuel + 1) p = [(p, T.length)] := by
        rw [chunkIntervalsGo, if_pos hp, if_pos hfin]
      refine ⟨?_, ⟨T.length, ?_⟩, ?_, ?_⟩
      · intro acc
        rw [hloop, hiv]
        rfl
      · rw [hiv]
        rfl
      · rw [hiv]
        rfl
      · rw [hiv]
        exact List.chain'_singleton _
    · push_neg at hfin
      have heplt : findBestSplitPoint T (p + opts.maxChunkSize) 200 < T.length :=
        findBestSplitPoint_lt T _ (by omega) hlastc hnl
      have hnplt : max (p + 1)
          (findBestSplitPoint T (p + opts.maxChunkSize) 200 - opts.overlapSize) < T.length := by
        have h1 : p + 1 < T.length := by omega
        omega
      have hnple : T.length ≤ max (p + 1)
          (findBestSplitPoint T (p + opts.maxChunkSize) 200 - opts.overlapSize) + fuel := by
        have : p + 1 ≤ max (p + 1)
          (findBestSplitPoint T (p + opts.maxChunkSize) 200 - opts.overlapSize) :=
          Nat.le_max_left _ _
        omega
      obtain ⟨ihloop, ⟨e', ihhead⟩, ihlastm, ihchain⟩ := ih _ hnplt hnple
      have hivne : chunkIntervalsGo T opts fuel (max (p + 1)
          (findBestSplitPoint T (p + opts.maxChunkSize) 200 - opts.overlapSize)) ≠ [] := by
        intro h0
        rw [h0] at ihhead
        simp at ihhead
      obtain ⟨iv2, rest2, hshape⟩ : ∃ iv2 rest2, chunkIntervalsGo T opts fuel (max (p + 1)
          (findBestSplitPoint T (p + opts.maxChunkSize) 200 - opts.overlapSize))
          = iv2 :: rest2 := by
        cases hx : chunkIntervalsGo T opts fuel (max (p + 1)
            (findBestSplitPoint T (p + opts.maxChunkSize) 200 - opts.overlapSize)) with
        | nil => exact absurd hx hivne
        | cons a l => exact ⟨a, l, rfl⟩
      have hloopstep : ∀ acc, chunkLoopGo T opts (fuel + 1) p acc =
          chunkLoopGo T opts fuel
            (max (p + 1) (findBestSplitPoint T (p + opts.maxChunkSize) 200 - opts.overlapSize))
            (acc ++ (if opts.minChunkSize ≤
              (trim ((T.drop p).take
                (findBestSplitPoint T (p + opts.maxChunkSize) 200 - p))).length
              then [trim ((T.drop p).take
                (findBestSplitPoint T (p + opts.maxChunkSize) 200 - p))]
              else [])) := by
        intro acc
        rw [chunkLoopGo, if_pos hp, if_neg (by omega)]
        dsimp only
        by_cases hm : opts.minChunkSize ≤
            (trim ((T.drop p).take
              (findBestSplitPoint T (p + opts.maxChunkSize) 200 - p))).length
        · rw [if_pos hm, if_pos hm]
        · rw [if_neg hm, if_neg hm, List.append_nil]
      have hivstep : chunkIntervalsGo T opts (fuel + 1) p =
          (p, findBestSplitPoint T (p + opts.maxChunkSize) 200) ::
          chunkIntervalsGo T opts fuel
            (max (p + 1)
              (findBestSplitPoint T (p + opts.maxChunkSize) 200 - opts.overlapSize)) := by
        rw [chunkIntervalsGo, if_pos hp, if_neg (by omega)]
      refine ⟨?_, ⟨findBestSplitPoint T (p + opts.maxChunkSize) 200, ?_⟩, ?_, ?_⟩
      · intro acc
        rw [hloopstep acc, ihloop, hivstep, hshape, List.append_assoc,
          emitIntervals_cons_cons]
      · rw [hivstep]
        rfl
      · rw [hivstep, hshape, List.getLast?_cons_cons, ← hshape]
        exact ihlastm
      · rw [hivstep]
        refine List.chain'_cons'.mpr ⟨?_, ihchain⟩
        intro b hb
        rw [ihhead] at hb
        simp only [Option.mem_def, Option.some.injEq] at hb
        subst hb
        simp

/-- C1 amended: the chunks of chunkText are exactly those produced by a
sequence of candidate windows over the normalized text that starts at
position 0, ends at the text length, and where each next window starts at
max(previous start + 1, previous end - overlapSize), so adjacent windows
overlap by at most overlapSize; every non-final window is emitted as a
trimmed slice only when it reaches minChunkSize, and the final window is
the trimmed remainder.  Coverage of every character fails in general:
dropped sub-minimum windows and trimmed boundary whitespace are not
covered (see the counterexample). -/
theorem chunkText_coverage (text : List Char) (opts : ChunkOptions)
    (hov : opts.overlapSize < opts.maxChunkSize)
    (hmin : opts.minChunkSize ≤ opts.maxChunkSize) :
    ∃ ivs : List (Nat × Nat),
      (chunkText text opts).chunks = emitIntervals (cleanPdfText text) opts.minChunkSize ivs ∧
      ivs ≠ [] ∧
      ivs.head?.map Prod.fst = some 0 ∧
      ivs.getLast?.map Prod.snd = some (cleanPdfText text).length ∧
      List.Chain' (fun a b => b.1 = max (a.1 + 1) (a.2 - opts.overlapSize)) ivs := by
  by_cases hsize : (cleanPdfText text).length ≤ opts.maxChunkSize
  · refine ⟨[(0, (cleanPdfText text).length)], ?_, by simp, by simp, by simp,
      List.chain'_singleton _⟩
    unfold chunkText
    rw [if_pos hsize]
    show [cleanPdfText text] = [trim ((cleanPdfText text).drop 0)]
    rw [List.drop_zero]
    unfold cleanPdfText
    rw [trim_trim]
  · have h0lt : 0 < (cleanPdfText text).length := by omega
    obtain ⟨hloop, hhead, hlastm, hchain⟩ := chunkGo_spec (cleanPdfText text) opts (by omega)
      (fun c hc => trim_getLast_not_ws _ c hc) (cleanPdfText_no_newline text)
      (cleanPdfText text).length 0 h0lt (by omega)
    refine ⟨chunkIntervalsGo (cleanPdfText text) opts (cleanPdfText text).length 0,
      ?_, ?_, ?_, hlastm, hchain⟩
    · unfold chunkText
      rw [if_neg hsize]
      dsimp only
      rw [hloop []]
      rw [List.nil_append]
    · intro h0
      obtain ⟨e, he⟩ := hhead
      rw [h0] at he
      simp at he
    · obtain ⟨e, he⟩ := hhead
      rw [he]
      rfl

/-- Witness for chunkText_coverage on a concrete text and options. -/
theorem chunkText_coverage_witness :
    ∃ ivs : List (Nat × Nat),
      (chunkText "abcde fghij".toList ⟨4, 0, 4⟩).chunks
        = emitIntervals (cleanPdfText "abcde fghij".toList) 4 ivs ∧
      ivs ≠ [] ∧
      ivs.head?.map Prod.fst = some 0 ∧
      ivs.getLast?.map Prod.snd = some (cleanPdfText "abcde fghij".toList).length ∧
      List.Chain' (fun a b => b.1 = max (a.1 + 1) (a.2 - 0)) ivs :=
  chunkText_coverage "abcde fghij".toList ⟨4, 0, 4⟩ (by norm_num) (by norm_num)

/-- Counterexample to C1 as stated: with maxChunkSize 4, overlapSize 0 and
minChunkSize 4 (satisfying the claim's constraints), the character f of
the normalized text "abcde fghij" appears in no emitted chunk: the window
containing it trims to the empty string and is dropped. -/
theorem chunkText_coverage_counterexample :
    (0 : Nat) < 4 ∧ (4 : Nat) ≤ 4 ∧
    'f' ∈ cleanPdfText "abcde fghij".toList ∧
    (chunkText "abcde fghij".toList ⟨4, 0, 4⟩).chunks.all
      (fun c => !c.contains 'f') = true := by decide

/-! Podcast script splitting (claim C9). -/

theorem lastSentenceEndGo_le : ∀ (w : List Char) (j r : Nat),
    lastSentenceEndGo j w = some r → r ≤ j + w.length := by
  intro w
  induction w with
  | nil => intro j r h; simp [lastSentenceEndGo] at h
  | cons c rest ih =>
    intro j r h
    cases rest with
    | nil =>
      rw [lastSentenceEndGo] at h
      by_cases hcond : (c = '.' ∨ c = '!' ∨ c = '?')
      · rw [if_pos hcond] at h
        cases h
        simp
      · rw [if_neg hcond] at h
        exact absurd h (by simp)
    | cons d rest2 =>
      rw [lastSentenceEndGo] at h
      cases hrec : lastSentenceEndGo (j + 1) (d :: rest2) with
      | some r2 =>
        rw [hrec] at h
        cases h
        have := ih (j + 1) r hrec
        simp only [List.length_cons] at this ⊢
        omega
      | none =>
        rw [hrec] at h
        by_cases hcond : (c = '.' ∨ c = '!' ∨ c = '?') ∧ (d = ' ' ∨ d = '
')
        · rw [if_pos hcond] at h
          cases h
          simp only [List.length_cons]
          omega
        · rw [if_neg hcond] at h
          exact absurd h (by simp)

theorem lastIndexOfCharLe_le (l : List Char) (c : Char) (pos : Nat) (i : Nat)
    (h : lastIndexOfCharLe l c pos = some i) : i ≤ pos ∧ i < l.length := by
  unfold lastIndexOfCharLe at h
  have hmem := List.mem_of_getLast?_eq_some h
  have h1 := (List.mem_filter.mp hmem).1
  have h2 := (List.mem_filter.mp hmem).2
  simp only [decide_eq_true_eq] at h2
  exact ⟨h2.1, List.mem_range.mp h1⟩

theorem podcastSplitIndex_bounds (remaining : List Char) (h : 4000 < remaining.length) :
    2000 < podcastSplitIndex 4000 remaining ∧ podcastSplitIndex 4000 remaining ≤ 4000 := by
  unfold podcastSplitIndex
  dsimp only
  have hwl : ((remaining.take 4000).drop (4000 - 500)).length = 500 := by
    rw [List.length_drop, List.length_take]
    omega
  have hfb : ∀ s, lastIndexOfCharLe remaining ' ' 4000 = some s →
      s ≤ 4000 := fun s hs => (lastIndexOfCharLe_le _ _ _ _ hs).1
  cases hse : lastSentenceEndGo (4000 - 500) ((remaining.take 4000).drop (4000 - 500)) with
  | some v =>
    dsimp only
    have hv := lastSentenceEndGo_le _ _ _ hse
    rw [hwl] at hv
    by_cases hv2 : 4000 / 2 < v
    · rw [if_pos hv2]
      omega
    · rw [if_neg hv2]
      cases hsp : lastIndexOfCharLe remaining ' ' 4000 with
      | some s =>
        dsimp only
        have := hfb s hsp
        by_cases hs2 : 4000 / 2 < s
        · rw [if_pos hs2]
          omega
        · rw [if_neg hs2]
          omega
      | none =>
        dsimp only
        omega
  | none =>
    dsimp only
    cases hsp : lastIndexOfCharLe remaining ' ' 4000 with
    | some s =>
      dsimp only
      have := hfb s hsp
      by_cases hs2 : 4000 / 2 < s
      · rw [if_pos hs2]
        omega
      · rw [if_neg hs2]
        omega
    | none =>
      dsimp only
      omega

theorem trimRight_eq_self_of_getLast (l : List Char)
    (h : ∀ c, l.getLast? = some c → isWs c = false) : trimRight l = l := by
  unfold trimRight
  rw [dropWhile_eq_self_of_head l.reverse, List.reverse_reverse]
  intro c hc
  rw [List.head?_reverse] at hc
  exact h c hc

theorem trim_ne_nil (l : List Char) (hne : l ≠ [])
    (hh : ∀ c, l.head? = some c → isWs c = false) : trim l ≠ [] := by
  have htl : trimLeft l = l := dropWhile_eq_self_of_head l hh
  unfold trim
  rw [htl]
  unfold trimRight
  intro h0
  rw [List.reverse_eq_nil_iff, List.dropWhile_eq_nil_iff] at h0
  cases l with
  | nil => exact hne rfl
  | cons c rest =>
    have hc := hh c rfl
    have := h0 c (by simp)
    rw [hc] at this
    exact Bool.false_ne_true this

theorem mem_takeWhile_ws (l : List Char) (c : Char)
    (h : c ∈ l.takeWhile (fun d => isWs d)) : isWs c = true := by
  induction l with
  | nil => simp [List.takeWhile] at h
  | cons a rest ih =>
    rw [List.takeWhile_cons] at h
    by_cases ha : isWs a = true
    · rw [if_pos ha] at h
      rcases List.mem_cons.mp h with h1 | h1
      · subst h1; exact ha
      · exact ih h1
    · rw [if_neg ha] at h
      simp at h

/-- Splitting a text with no whitespace at either end at an interior
index: the text is the trimmed front part, then a whitespace-only middle,
then the trimmed back part. -/
theorem split_decomp (remaining : List Char) (si : Nat)
    (hh : ∀ c, remaining.head? = some c → isWs c = false)
    (hl : ∀ c, remaining.getLast? = some c → isWs c = false)
    (h1 : 1 ≤ si) (h2 : si < remaining.length) :
    ∃ mid : List Char, (∀ c ∈ mid, isWs c = true) ∧
      remaining = trim (remaining.take si) ++ mid ++ trim (remaining.drop si) := by
  have hrne : remaining ≠ [] := by
    intro h0
    rw [h0] at h2
    simp at h2
  have htakehead : (remaining.take si).head? = remaining.head? := by
    cases remaining with
    | nil => simp
    | cons a rest =>
      cases si with
      | zero => omega
      | succ k => rfl
  have htlt : trimLeft (remaining.take si) = remaining.take si := by
    refine dropWhile_eq_self_of_head _ ?_
    intro c hc
    rw [htakehead] at hc
    exact hh c hc
  have htaketrim : trim (remaining.take si) = trimRight (remaining.take si) := by
    unfold trim
    rw [htlt]
  have htakedecomp : remaining.take si = trim (remaining.take si)
      ++ ((remaining.take si).reverse.takeWhile (fun d => isWs d)).reverse := by
    rw [htaketrim]
    exact trimRight_decomp _
  have hdropne : remaining.drop si ≠ [] := by
    intro h0
    have := congrArg List.length h0
    simp at this
    omega
  have hdroplast : (remaining.drop si).getLast? = remaining.getLast? :=
    getLast?_drop_of_lt _ _ h2
  have hdl : ∀ c, (remaining.drop si).getLast? = some c → isWs c = false := by
    intro c hc
    rw [hdroplast] at hc
    exact hl c hc
  have htlne : trimLeft (remaining.drop si) ≠ [] := by
    unfold trimLeft
    intro h0
    rw [List.dropWhile_eq_nil_iff] at h0
    cases hx : (remaining.drop si).getLast? with
    | none => exact absurd (List.getLast?_eq_none_iff.mp hx) hdropne
    | some d =>
      have hdmem := List.mem_of_getLast?_eq_some hx
      have := h0 d hdmem
      rw [hdl d hx] at this
      exact Bool.false_ne_true this
  have htllast : (trimLeft (remaining.drop si)).getLast? = (remaining.drop si).getLast? := by
    unfold trimLeft
    have hsplit : (remaining.drop si).takeWhile (fun d => isWs d)
        ++ (remaining.drop si).dropWhile (fun d => isWs d) = remaining.drop si := by
      simp
    conv_rhs => rw [← hsplit]
    rw [List.getLast?_append]
    cases hx : ((remaining.drop si).dropWhile (fun d => isWs d)).getLast? with
    | none =>
      rw [List.getLast?_eq_none_iff] at hx
      exact absurd hx htlne
    | some d => simp
  have hdroptrim : trim (remaining.drop si) = trimLeft (remaining.drop si) := by
    unfold trim
    refine trimRight_eq_self_of_getLast _ ?_
    intro c hc
    rw [htllast] at hc
    exact hdl c hc
  have hdropdecomp : remaining.drop si = (remaining.drop si).takeWhile (fun d => isWs d)
      ++ trim (remaining.drop si) := by
    rw [hdroptrim]
    unfold trimLeft
    simp
  refine ⟨((remaining.take si).reverse.takeWhile (fun d => isWs d)).reverse
    ++ (remaining.drop si).takeWhile (fun d => isWs d), ?_, ?_⟩
  · intro c hc
    rcases List.mem_append.mp hc with h | h
    · rw [List.mem_reverse] at h
      exact mem_takeWhile_ws _ _ h
    · exact mem_takeWhile_ws _ _ h
  · conv_lhs => rw [← List.take_append_drop si remaining]
    conv_lhs => rw [htakedecomp, hdropdecomp]
    simp only [List.append_assoc]

theorem head?_take_pos (l : List Char) (n : Nat) (hn : 1 ≤ n) : (l.take n).head? = l.head? := by
  cases l with
  | nil => simp
  | cons a rest =>
    cases n with
    | zero => omega
    | succ k => rfl

theorem splitGo_pieces (fuel : Nat) : ∀ remaining : List Char,
    remaining.length ≤ fuel →
    (∀ c, remaining.head? = some c → isWs c = false) →
    (∀ c, remaining.getLast? = some c → isWs c = false) →
    ∀ piece ∈ splitTextIntoChunksGo 4000 fuel remaining,
      piece ≠ [] ∧ piece.length ≤ 4000 := by
  induction fuel with
  | zero => intro remaining hle hh hl piece hp; simp [splitTextIntoChunksGo] at hp
  | succ fuel ih =>
    intro remaining hle hh hl piece hp
    rw [splitTextIntoChunksGo] at hp
    by_cases h0 : remaining.length = 0
    · rw [if_pos h0] at hp
      simp at hp
    · rw [if_neg h0] at hp
      by_cases h4 : remaining.length ≤ 4000
      · rw [if_pos h4] at hp
        simp only [List.mem_singleton] at hp
        subst hp
        exact ⟨fun hnil => h0 (by rw [hnil]; rfl), h4⟩
      · rw [if_neg h4] at hp
        push_neg at h4
        have hb := podcastSplitIndex_bounds remaining h4
        rcases List.mem_cons.mp hp with h | h
        · subst h
          constructor
          · refine trim_ne_nil _ ?_ ?_
            · intro htn
              have := congrArg List.length htn
              rw [List.length_take] at this
              simp only [List.length_nil] at this
              omega
            · intro c hc
              rw [head?_take_pos _ _ (by omega)] at hc
              exact hh c hc
          · calc (trim (remaining.take (podcastSplitIndex 4000 remaining))).length
                ≤ (remaining.take (podcastSplitIndex 4000 remaining)).length :=
                  trim_length_le _
              _ ≤ podcastSplitIndex 4000 remaining := List.length_take_le _ _
              _ ≤ 4000 := hb.2
        · refine ih _ ?_ ?_ ?_ piece h
          · have := trim_length_le (remaining.drop (podcastSplitIndex 4000 remaining))
            rw [List.length_drop] at this
            omega
          · exact trim_head_not_ws _
          · exact trim_getLast_not_ws _

theorem splitGo_count (k : Nat) : ∀ (fuel : Nat) (remaining : List Char),
    remaining.length ≤ 2001 * k + 4000 →
    (splitTextIntoChunksGo 4000 fuel remaining).length ≤ k + 1 := by
  induction k with
  | zero =>
    intro fuel remaining h
    cases fuel with
    | zero => simp [splitTextIntoChunksGo]
    | succ fuel =>
      rw [splitTextIntoChunksGo]
      by_cases h0 : remaining.length = 0
      · rw [if_pos h0]
        simp
      · rw [if_neg h0]
        rw [if_pos (by omega)]
        simp
  | succ k ih =>
    intro fuel remaining h
    cases fuel with
    | zero => simp [splitTextIntoChunksGo]
    | succ fuel =>
      rw [splitTextIntoChunksGo]
      by_cases h0 : remaining.length = 0
      · rw [if_pos h0]
        simp
      · rw [if_neg h0]
        by_cases h4 : remaining.length ≤ 4000
        · rw [if_pos h4]
          simp
        · rw [if_neg h4]
          push_neg at h4
          have hb := podcastSplitIndex_bounds remaining h4
          simp only [List.length_cons]
          have hrec := ih fuel (trim (remaining.drop (podcastSplitIndex 4000 remaining)))
            (by
              have := trim_length_le (remaining.drop (podcastSplitIndex 4000 remaining))
              rw [List.length_drop] at this
              have hm : (2001 : Nat) * (k + 1) = 2001 * k + 2001 := by ring
              omega)
          omega

theorem splitGo_eq_nil (fuel : Nat) (remaining : List Char) (hle : remaining.length ≤ fuel)
    (h : splitTextIntoChunksGo 4000 fuel remaining = []) : remaining = [] := by
  cases fuel with
  | zero =>
    have : remaining.length = 0 := by omega
    exact List.length_eq_zero.mp this
  | succ fuel =>
    rw [splitTextIntoChunksGo] at h
    by_cases h0 : remaining.length = 0
    · exact List.length_eq_zero.mp h0
    · rw [if_neg h0] at h
      by_cases h4 : remaining.length ≤ 4000
      · rw [if_pos h4] at h
        exact absurd h (by simp)
      · rw [if_neg h4] at h
        exact absurd h (by simp)

theorem splitGo_join (fuel : Nat) : ∀ remaining : List Char,
    remaining.length ≤ fuel →
    (∀ c, remaining.head? = some c → isWs c = false) →
    (∀ c, remaining.getLast? = some c → isWs c = false) →
    ∃ seps : List (List Char),
      seps.length = (splitTextIntoChunksGo 4000 fuel remaining).length - 1 ∧
      (∀ w ∈ seps, ∀ c ∈ w, isWs c = true) ∧
      joinWithSeps (splitTextIntoChunksGo 4000 fuel remaining) seps = remaining := by
  induction fuel with
  | zero =>
    intro remaining hle hh hl
    have h0 : remaining = [] := List.length_eq_zero.mp (by omega)
    subst h0
    exact ⟨[], by simp [splitTextIntoChunksGo], by simp, by simp [splitTextIntoChunksGo, joinWithSeps]⟩
  | succ fuel ih =>
    intro remaining hle hh hl
    rw [splitTextIntoChunksGo]
    by_cases h0 : remaining.length = 0
    · rw [if_pos h0]
      have : remaining = [] := List.length_eq_zero.mp h0
      subst this
      exact ⟨[], by simp, by simp, by simp [joinWithSeps]⟩
    · rw [if_neg h0]
      by_cases h4 : remaining.length ≤ 4000
      · rw [if_pos h4]
        exact ⟨[], by simp, by simp, by simp [joinWithSeps]⟩
      · rw [if_neg h4]
        push_neg at h4
        have hb := podcastSplitIndex_bounds remaining h4
        obtain ⟨mid, hmidws, hdecomp⟩ := split_decomp remaining (podcastSplitIndex 4000 remaining)
          hh hl (by omega) (by omega)
        have hrle : (trim (remaining.drop (podcastSplitIndex 4000 remaining))).length ≤ fuel := by
          have := trim_length_le (remaining.drop (podcastSplitIndex 4000 remaining))
          rw [List.length_drop] at this
          omega
        obtain ⟨seps', hslen, hsws, hsjoin⟩ := ih
          (trim (remaining.drop (podcastSplitIndex 4000 remaining))) hrle
          (trim_head_not_ws _) (trim_getLast_not_ws _)
        cases hps : splitTextIntoChunksGo 4000 fuel
            (trim (remaining.drop (podcastSplitIndex 4000 remaining))) with
        | nil =>
          have hrnil : trim (remaining.drop (podcastSplitIndex 4000 remaining)) = [] :=
            splitGo_eq_nil fuel _ hrle hps
          have hmidnil : mid = [] := by
            by_contra hmne
            have hgl : remaining.getLast? = mid.getLast? := by
              conv_lhs => rw [hdecomp, hrnil]
              rw [List.append_nil, List.getLast?_append]
              cases hx : mid.getLast? with
              | none => exact absurd (List.getLast?_eq_none_iff.mp hx) hmne
              | some d => simp
            cases hx : mid.getLast? with
            | none => exact absurd (List.getLast?_eq_none_iff.mp hx) hmne
            | some d =>
              have hdws := hmidws d (List.mem_of_getLast?_eq_some hx)
              have hfalse := hl d (by rw [hgl, hx])
              rw [hdws] at hfalse
              exact absurd hfalse (by simp)
          refine ⟨[], ?_, by simp, ?_⟩
          · rfl
          · show trim (remaining.take (podcastSplitIndex 4000 remaining)) = remaining
            conv_rhs => rw [hdecomp, hmidnil, hrnil]
            simp
        | cons q ps =>
          refine ⟨mid :: seps', ?_, ?_, ?_⟩
          · rw [hps] at hslen
            simp only [List.length_cons] at hslen ⊢
            omega
          · intro w hw
            rcases List.mem_cons.mp hw with h | h
            · subst h; exact hmidws
            · exact hsws w h
          · rw [hps] at hsjoin
            show trim (remaining.take (podcastSplitIndex 4000 remaining)) ++ mid
              ++ joinWithSeps (q :: ps) seps' = remaining
            rw [hsjoin]
            conv_rhs => rw [hdecomp]

/-- C9 amended: for a 9000-character script with no sentence-ending
punctuation, splitTextIntoChunks at 4000 falls back to space-based (or
hard) splitting and produces at most 4 non-empty pieces, each of at most
4000 characters, whose concatenation, restoring the whitespace removed at
the split points, reproduces the trimmed script.  The count is not always
3: splits land wherever the last space lies past the midpoint, and
whitespace-heavy scripts shrink under trimming. -/
theorem splitTextIntoChunks_spec (script : List Char)
    (hlen : script.length = 9000)
    (hnp : ∀ c ∈ script, ¬(c = '.' ∨ c = '!' ∨ c = '?'))
    (hsp : ' ' ∈ script) :
    (∀ piece ∈ splitTextIntoChunks script 4000, piece ≠ [] ∧ piece.length ≤ 4000) ∧
    (splitTextIntoChunks script 4000).length ≤ 4 ∧
    ∃ seps : List (List Char),
      seps.length = (splitTextIntoChunks script 4000).length - 1 ∧
      (∀ w ∈ seps, ∀ c ∈ w, isWs c = true) ∧
      joinWithSeps (splitTextIntoChunks script 4000) seps = trim script := by
  unfold splitTextIntoChunks
  have htle : (trim script).length ≤ script.length := trim_length_le _
  refine ⟨?_, ?_, ?_⟩
  · exact splitGo_pieces (script.length + 1) (trim script) (by omega)
      (trim_head_not_ws _) (trim_getLast_not_ws _)
  · refine splitGo_count 3 _ _ ?_
    omega
  · exact splitGo_join (script.length + 1) (trim script) (by omega)
      (trim_head_not_ws _) (trim_getLast_not_ws _)

theorem dropWhile_replicate_append (n : Nat) (c : Char) (l : List Char) (p : Char → Bool)
    (hp : p c = true) : List.dropWhile p (List.replicate n c ++ l) = List.dropWhile p l := by
  induction n with
  | zero => simp
  | succ n ih =>
    rw [List.replicate_succ, List.cons_append, List.dropWhile_cons, if_pos hp]
    exact ih

/-- Witness for splitTextIntoChunks_spec on a concrete 9000-character
script. -/
theorem splitTextIntoChunks_spec_witness :
    (∀ piece ∈ splitTextIntoChunks (List.replicate 8999 ' ' ++ ['a']) 4000,
      piece ≠ [] ∧ piece.length ≤ 4000) ∧
    (splitTextIntoChunks (List.replicate 8999 ' ' ++ ['a']) 4000).length ≤ 4 ∧
    ∃ seps : List (List Char),
      seps.length = (splitTextIntoChunks (List.replicate 8999 ' ' ++ ['a']) 4000).length - 1 ∧
      (∀ w ∈ seps, ∀ c ∈ w, isWs c = true) ∧
      joinWithSeps (splitTextIntoChunks (List.replicate 8999 ' ' ++ ['a']) 4000) seps
        = trim (List.replicate 8999 ' ' ++ ['a']) :=
  splitTextIntoChunks_spec (List.replicate 8999 ' ' ++ ['a'])
    (by
      rw [List.length_append, List.length_replicate, List.length_singleton])
    (by
      intro c hc
      rcases List.mem_append.mp hc with h | h
      · rw [List.eq_of_mem_replicate h]
        decide
      · rw [List.mem_singleton.mp h]
        decide)
    (List.mem_append_left _ (List.mem_replicate.mpr ⟨by norm_num, rfl⟩))

/-- Counterexample to C9 as stated: a 9000-character script of 8999
spaces followed by one letter satisfies the claim's hypotheses (no
sentence-ending punctuation, contains spaces), yet splitTextIntoChunks
produces one piece, not three: the script trims to a single character
before the loop runs. -/
theorem splitTextIntoChunks_counterexample :
    (List.replicate 8999 ' ' ++ ['a']).length = 9000 ∧
    (∀ c ∈ List.replicate 8999 ' ' ++ ['a'], ¬(c = '.' ∨ c = '!' ∨ c = '?')) ∧
    ' ' ∈ List.replicate 8999 ' ' ++ ['a'] ∧
    (splitTextIntoChunks (List.replicate 8999 ' ' ++ ['a']) 4000).length = 1 := by
  have hlen9 : (List.replicate 8999 ' ' ++ (['a'] : List Char)).length = 9000 := by
    rw [List.length_append, List.length_replicate, List.length_singleton]
  refine ⟨hlen9, ?_, ?_, ?_⟩
  · intro c hc
    rcases List.mem_append.mp hc with h | h
    · rw [List.eq_of_mem_replicate h]
      decide
    · rw [List.mem_singleton.mp h]
      decide
  · exact List.mem_append_left _ (List.mem_replicate.mpr ⟨by norm_num, rfl⟩)
  · have htl : trimLeft (List.replicate 8999 ' ' ++ ['a']) = ['a'] := by
      unfold trimLeft
      rw [dropWhile_replicate_append]
      · rfl
      · decide
    have htrim : trim (List.replicate 8999 ' ' ++ ['a']) = ['a'] := by
      unfold trim
      rw [htl]
      rfl
    unfold splitTextIntoChunks
    rw [htrim, hlen9]
    rw [splitTextIntoChunksGo]
    norm_num
